import Mathlib

/-!
Shallow embedding of the junction-caps repository (XMPP Entity Capabilities
middleware).  The embedded code:

* `src/lib/util.js`                    — `removeDuplicates`, `deepClone`
* `src/lib/cache/memory.js`            — `MemoryCache`
* the capabilities parser (`capabilitiesParser.js`) — `handlePresence`,
  `handleIQ`, `parseCommonFeatures`
* `src/lib/middleware/capabilities.js` — the `Handler` coordinator

JavaScript objects used as dictionaries are modelled as association lists
(`jmGet` / `jmSet` / `jmDel` mirror property read, property assignment and
`delete`).  Mutable objects that are aliased across the handler's maps
(pending-buddy records and the per-extension waiter arrays) are given explicit
identities in a heap, so that JS reference semantics (replacing
`_pendingBuddies[jid]` while old references survive inside waiter arrays,
in-place `splice`, ...) is reproduced faithfully.  A JS exception escaping a
handler is modelled by the handler returning `none`.
-/

namespace JunctionCaps

/-- Association-list model of a JS object used as a dictionary: property read
(`obj[k]`, `undefined` when absent is `none`). -/
def jmGet {κ α : Type} [DecidableEq κ] (m : List (κ × α)) (k : κ) : Option α :=
  match m with
  | [] => none
  | (k', v) :: rest => if k = k' then some v else jmGet rest k

/-- Property assignment `obj[k] = v`: replaces the binding if the key exists,
otherwise appends it (JS objects keep first-insertion order). -/
def jmSet {κ α : Type} [DecidableEq κ] (m : List (κ × α)) (k : κ) (v : α) :
    List (κ × α) :=
  match m with
  | [] => [(k, v)]
  | (k', v') :: rest => if k = k' then (k, v) :: rest else (k', v') :: jmSet rest k v

/-- `delete obj[k]`. -/
def jmDel {κ α : Type} [DecidableEq κ] (m : List (κ × α)) (k : κ) :
    List (κ × α) :=
  match m with
  | [] => []
  | (k', v') :: rest => if k = k' then rest else (k', v') :: jmDel rest k

/-- Keys of a JS-object model, in insertion order. -/
def jmKeys {κ α : Type} (m : List (κ × α)) : List κ := m.map Prod.fst

/-! ## Data model: parsed stanzas -/

/-- The object the capabilities parser attaches to a presence stanza:
`{ node, ver, hash, ext }` (`handlePresence` in capabilitiesParser.js). -/
structure PresCaps where
  node : String
  ver : String
  hash : Option String
  ext : Option (List String)
deriving DecidableEq, Repr

/-- A presence stanza as the coordinator sees it: the sender JID plus the
`stanza.caps` object the parser may have attached. -/
structure Presence where
  fromJid : String
  caps : Option PresCaps
deriving DecidableEq, Repr

/-- The object the parser attaches to a disco#info IQ result:
`{ node, rawFeatures, features, clientName }` (`handleIQ` in
capabilitiesParser.js).  `node` is the query-node attribute the responder
echoed back — it may be absent (Gmail quirk). -/
structure Caps where
  node : Option String
  rawFeatures : List String
  features : List (String × Bool)
  clientName : Option String
deriving DecidableEq, Repr

/-- An IQ stanza as the coordinator's `_handleIQ` sees it: the stanza id and
the `stanza.capabilities` object, which is absent when the parser did not
recognise or refused the stanza (e.g. `type='error'`). -/
structure IQStanza where
  id : String
  capabilities : Option Caps
deriving DecidableEq, Repr

/-! ## util.js -/

/-- `removeDuplicates` (util.js): the source walks the array from the last
index down to 0, deleting an element in place when its value was already seen;
consequently the **last** occurrence of every value is the one kept, relative
order otherwise preserved (e.g. `[a, b, a] ↦ [b, a]`). -/
def removeDuplicates {α : Type} [DecidableEq α] : List α → List α
  | [] => []
  | x :: xs => if x ∈ xs then removeDuplicates xs else x :: removeDuplicates xs

/-- `deepClone` (util.js) is `JSON.parse(JSON.stringify(data))`; on the record
values stored in the caches (strings, arrays, boolean maps) the JSON round
trip is the identity — but it yields a fresh, unaliased copy, which is what
the by-value semantics of this embedding gives every read. -/
def deepClone (c : Caps) : Caps := c

/-! ## capabilitiesParser.js -/

/-- The `commonFeatures` table of the parser, in source order. -/
def commonFeatures : List (String × String) :=
  [("jabber:iq:last", "lastActivity"),
   ("http://jabber.org/protocol/muc", "muc"),
   ("http://jabber.org/protocol/ibb", "byteStreams"),
   ("http://jabber.org/protocol/xhtml-im", "xhtml"),
   ("urn:xmpp:avatar:metadata+notify", "avatar"),
   ("jabber:iq:version", "version"),
   ("http://jabber.org/protocol/si/profile/file-transfer", "siFileTransfer"),
   ("http://jabber.org/protocol/mood+notify", "mood"),
   ("urn:xmpp:jingle:apps:rtp:0", "rtpv0"),
   ("urn:xmpp:jingle:apps:rtp:1", "rtpv1"),
   ("urn:xmpp:jingle:apps:rtp:audio", "rtpaudio"),
   ("urn:xmpp:jingle:apps:rtp:video", "rtpvideo"),
   ("urn:xmpp:attention:0", "attention"),
   ("urn:xmpp:bob", "bob"),
   ("http://www.google.com/xmpp/protocol/camera/v1", "googleCamera"),
   ("http://www.google.com/xmpp/protocol/video/v1", "googleVideo"),
   ("http://www.google.com/xmpp/protocol/voice/v1", "googleVoice"),
   ("google:mail:notify", "gmailNotify")]

/-- `parseCommonFeatures` over a raw-feature array that may contain
`undefined` entries (`none`): every short name starts `false`, then every raw
feature found in the table flips its short name to `true`.  An `undefined`
entry finds nothing in the table and is skipped, exactly as in JS. -/
def parseCommonFeaturesOv (raw : List (Option String)) : List (String × Bool) :=
  let init := commonFeatures.foldl (fun acc p => jmSet acc p.2 false) []
  raw.foldl (fun acc f =>
    match f with
    | none => acc
    | some s =>
      match jmGet commonFeatures s with
      | some name => jmSet acc name true
      | none => acc) init

/-- `parseCommonFeatures` (capabilitiesParser.js) on a fully defined raw
feature array. -/
def parseCommonFeatures (raw : List String) : List (String × Bool) :=
  parseCommonFeaturesOv (raw.map some)

/-- The `<c xmlns='http://jabber.org/protocol/caps'>` element of a presence
stanza: its attributes, each possibly absent. -/
structure CElem where
  node : String
  ver : String
  hash : Option String
  ext : Option String
deriving DecidableEq, Repr

/-- A raw presence stanza offered to the parser: sender plus the optional
caps child element. -/
structure PresenceXml where
  fromJid : String
  c : Option CElem
deriving DecidableEq, Repr

/-- JavaScript `str.split(' ')`: cuts at every single space; consecutive,
leading or trailing spaces yield empty fragments, and splitting the empty
string yields `[""]`. -/
def jsSplitSpace (s : String) : List String :=
  (s.data.foldr (fun ch acc =>
    match acc with
    | [] => [[ch]]
    | cur :: rest => if ch = ' ' then [] :: cur :: rest else (ch :: cur) :: rest)
    [[]]).map String.mk

/-- JavaScript `str.substr(0, n)`. -/
def jsPrefix (s : String) (n : Nat) : String := String.mk (s.data.take n)

/-- Parser `handlePresence`: attaches
`{node, ver, hash, ext: (c.attrs.ext || '').split(' ')}` when the `<c>` child
exists.  Note `(undefined || '').split(' ')` is `[""]`, never `[]`. -/
def parsePresence (xml : PresenceXml) : Presence :=
  { fromJid := xml.fromJid,
    caps := xml.c.map (fun ce =>
      { node := ce.node, ver := ce.ver, hash := ce.hash,
        ext := some (jsSplitSpace (ce.ext.getD "")) }) }

/-- The `<query xmlns='http://jabber.org/protocol/disco#info'>` child of an
IQ result: echoed node attribute, feature `var`s, optional identity name. -/
structure QueryElem where
  node : Option String
  featureVars : List String
  identityName : Option (Option String)
deriving DecidableEq, Repr

/-- A raw IQ stanza offered to the parser. -/
structure IQXml where
  id : String
  itype : String
  query : Option QueryElem
deriving DecidableEq, Repr

/-- Parser `handleIQ`: the capabilities object it attaches to the stanza, or
`none` when it leaves the stanza untouched.  It bails out when there is no
disco#info query child, when the id is neither `caps` nor `caps-ext-*`
(the ids of the superseded implementation), or when the stanza is a
`type='error'` reply — error replies are silently ignored. -/
def parseIQCapabilities (xml : IQXml) : Option Caps :=
  match xml.query with
  | none => none
  | some q =>
    if xml.id ≠ "caps" ∧ jsPrefix xml.id 9 ≠ "caps-ext-" then none
    else if xml.itype = "error" then none
    else
      some { node := q.node,
             rawFeatures := q.featureVars,
             features := parseCommonFeatures q.featureVars,
             clientName := xml.query.bind (fun qe => qe.identityName.map (fun n => n.getD "")) }

/-! ## cache/memory.js -/

/-- `MemoryCache`: `_capsCache` maps `node#ver` to the capability object,
`_extCache` maps `node#ver` to a map from extension name to feature list. -/
structure MemoryCache where
  capsCache : List (String × Caps)
  extCache : List (String × List (String × List String))
deriving DecidableEq, Repr

/-- A fresh `MemoryCache`. -/
def MemoryCache.init : MemoryCache := { capsCache := [], extCache := [] }

/-- `getCapabilities`: the value handed to the callback. -/
def MemoryCache.getCapabilities (m : MemoryCache) (node : String) : Option Caps :=
  jmGet m.capsCache node

/-- `saveCapabilities` (memory.js line 46): `this._capsCache[node] = caps` —
an unconditional property assignment. -/
def MemoryCache.saveCapabilities (m : MemoryCache) (node : String) (caps : Caps) :
    MemoryCache :=
  { m with capsCache := jmSet m.capsCache node caps }

/-- `getExtensions`: splits the requested extensions into the cached map and
the not-yet-cached list handed to the callback. -/
def MemoryCache.getExtensions (m : MemoryCache) (node : String) (exts : List String) :
    List (String × List String) × List String :=
  let extCache := (jmGet m.extCache node).getD []
  exts.foldl (fun acc ext =>
    match jmGet extCache ext with
    | some fs => (jmSet acc.1 ext fs, acc.2)
    | none => (acc.1, acc.2 ++ [ext])) ([], [])

/-- `saveExtension`: creates the inner map if needed, then assigns. -/
def MemoryCache.saveExtension (m : MemoryCache) (node ext : String)
    (features : List String) : MemoryCache :=
  let inner := (jmGet m.extCache node).getD []
  { m with extCache := jmSet m.extCache node (jmSet inner ext features) }

/-! ## middleware/capabilities.js — the Handler coordinator

Pending-buddy records and the per-extension waiter arrays are mutable JS
objects aliased from several maps, so they live in explicit heaps keyed by
allocation counters (`buddyHeap`, `waitArrs`); everywhere the source stores an
object reference the model stores the heap id. -/

/-- A `_pendingBuddies` record: `{ jid, pendingExts, originalPresence }`.
`pendingExts` is the JS array of references to the waiter arrays this buddy
is still waiting on (ids into `waitArrs`, with multiplicity and order). -/
structure Buddy where
  jid : String
  pendingExts : List Nat
  originalPresence : Presence
deriving DecidableEq, Repr

/-- A `_pending` record: `{ node, ver, buddies }`. -/
structure PendingMain where
  node : String
  ver : String
  buddies : List String
deriving DecidableEq, Repr

/-- An `_iqRequests` record: the `extraData` (`{type}` or `{type, ext}`)
after `_sendDiscoQuery` stamped `node`, `ver` and `fullNode` onto it. -/
structure Request where
  rtype : String
  rext : Option String
  node : String
  ver : String
  fullNode : String
deriving DecidableEq, Repr

/-- One outgoing disco#info IQ query handed to the transport:
`new IQ(stanza.from, 'get')` with the generated id and the query node. -/
structure SentQuery where
  toJid : String
  id : String
  queryNode : String
deriving DecidableEq, Repr

/-- The capability object given to `capabilities` event listeners.  Its
`rawFeatures` may contain `undefined` entries (`none`): `Array.concat` with an
`undefined` extension entry appends `undefined` rather than throwing. -/
structure EmittedCaps where
  node : Option String
  rawFeatures : List (Option String)
  features : List (String × Bool)
  clientName : Option String
deriving DecidableEq, Repr

/-- The observable effects of handling one inbound stanza: disco queries sent
through the connection and `capabilities` events emitted. -/
structure Effects where
  queries : List SentQuery
  emits : List (String × EmittedCaps)
deriving DecidableEq, Repr

/-- The empty effect set. -/
def Effects.nil : Effects := { queries := [], emits := [] }

/-- The instance fields of `Handler`. -/
structure HandlerState where
  cache : List (String × Option Caps)
  extCache : List (String × List (String × List String))
  pending : List (String × PendingMain)
  pendingExt : List (String × List (String × Nat))
  pendingBuddies : List (String × Nat)
  iqRequests : List (String × Request)
  iqCount : Nat
  buddyHeap : List (Nat × Buddy)
  waitArrs : List (Nat × List Nat)
  nextBuddyId : Nat
  nextArrId : Nat
deriving DecidableEq, Repr

/-- `new Handler()`. -/
def initState : HandlerState :=
  { cache := [], extCache := [], pending := [], pendingExt := [],
    pendingBuddies := [], iqRequests := [], iqCount := 0,
    buddyHeap := [], waitArrs := [], nextBuddyId := 0, nextArrId := 0 }

/-- Truthiness of a `_cache` read: the key must be present and its stored
value must not be `undefined` (an error reply stores `undefined`). -/
def capsTruthy (v : Option (Option Caps)) : Bool :=
  match v with
  | some (some _) => true
  | _ => false

/-- `_sendDiscoQuery(stanza, node, extraData)`: allocates the id
`'caps-' + (++iqCount)`, stores the request record (the `extraData` with
`node`, `ver` and `fullNode` stamped on), and sends the IQ.  Reading
`stanza.caps.node` throws when the stanza has no caps. -/
def sendDiscoQuery (st : HandlerState) (stanza : Presence) (node : String)
    (rtype : String) (rext : Option String) :
    Option (HandlerState × SentQuery) :=
  match stanza.caps with
  | none => none
  | some c =>
    let count := st.iqCount + 1
    let id := "caps-" ++ toString count
    let request : Request :=
      { rtype := rtype, rext := rext, node := c.node, ver := c.ver,
        fullNode := c.node ++ "#" ++ c.ver }
    some ({ st with iqCount := count,
                    iqRequests := jmSet st.iqRequests id request },
          { toJid := stanza.fromJid, id := id, queryNode := node })

/-- `_getCapabilitiesFromPresence(stanza)`: creates the `_pending` record and
sends the main disco query only when no request for this `fullNode` is
already pending, then registers the sender as a waiter either way. -/
def getCapabilitiesFromPresence (st : HandlerState) (stanza : Presence) :
    Option (HandlerState × List SentQuery) :=
  match stanza.caps with
  | none => none
  | some c =>
    let fullNode := c.node ++ "#" ++ c.ver
    let sent : Option (HandlerState × List SentQuery) :=
      match jmGet st.pending fullNode with
      | none =>
        let stA := { st with pending := jmSet st.pending fullNode
                               { node := c.node, ver := c.ver, buddies := [] } }
        match sendDiscoQuery stA stanza fullNode "caps" none with
        | none => none
        | some (stB, q) => some (stB, [q])
      | some _ => some (st, [])
    match sent with
    | none => none
    | some (st1, qs) =>
      match jmGet st1.pending fullNode with
      | none => none
      | some pm =>
        some ({ st1 with pending := jmSet st1.pending fullNode
                           { pm with buddies := pm.buddies ++ [stanza.fromJid] } },
              qs)

/-- `_getExtensionFromPresence(stanza, ext)`: sends the extension disco query
for node `caps.node + '#' + ext` only when no request for this
(`fullNode`, `ext`) pair is pending, then links the waiter array and the
pending buddy both ways.  Reading `this._pendingExt[fullNode][ext]` throws
when the inner map does not exist, and `pendingBuddy.pendingExts.push` throws
when the sender has no pending-buddy record. -/
def getExtensionFromPresence (st : HandlerState) (stanza : Presence) (ext : String) :
    Option (HandlerState × List SentQuery) :=
  match stanza.caps with
  | none => none
  | some c =>
    let fullNode := c.node ++ "#" ++ c.ver
    let pendingBuddyId := jmGet st.pendingBuddies stanza.fromJid
    match jmGet st.pendingExt fullNode with
    | none => none
    | some inner =>
      let sent : Option (HandlerState × List SentQuery) :=
        match jmGet inner ext with
        | none =>
          let aId := st.nextArrId
          let stA := { st with
            nextArrId := aId + 1,
            waitArrs := jmSet st.waitArrs aId [],
            pendingExt := jmSet st.pendingExt fullNode (jmSet inner ext aId) }
          match sendDiscoQuery stA stanza (c.node ++ "#" ++ ext) "ext" (some ext) with
          | none => none
          | some (stB, q) => some (stB, [q])
        | some _ => some (st, [])
      match sent with
      | none => none
      | some (st1, qs) =>
        match jmGet st1.pendingExt fullNode with
        | none => none
        | some inner1 =>
          match jmGet inner1 ext with
          | none => none
          | some aId =>
            match pendingBuddyId with
            | none => none
            | some bId =>
              let arr := (jmGet st1.waitArrs aId).getD []
              let st2 := { st1 with waitArrs := jmSet st1.waitArrs aId (arr ++ [bId]) }
              match jmGet st2.buddyHeap bId with
              | none => none
              | some b =>
                some ({ st2 with buddyHeap := jmSet st2.buddyHeap bId
                                   { b with pendingExts := b.pendingExts ++ [aId] } },
                      qs)

/-- `_emitCapabilitiesEvent(presence)`: deep-clones the cached main
capability set, concatenates every announced extension's cached raw features
onto the clone (an uncached extension contributes a single `undefined`
element; a missing inner `_extCache[fullNode]` object throws), removes
duplicates in place, re-parses the common features and emits.  The `caps.ext.forEach`
concatenation loop is the named helper `concatExtFeatures`. -/
def concatExtFeatures (st : HandlerState) (fullNode : String)
    (raw0 : List (Option String)) : Option (List String) → Option (List (Option String))
  | some exts =>
    exts.foldlM (fun acc e =>
      match jmGet st.extCache fullNode with
      | none => none
      | some innerC =>
        match jmGet innerC e with
        | some fs => some (acc ++ fs.map some)
        | none => some (acc ++ [none])) raw0
  | none => some raw0

/-- See the comment on `concatExtFeatures` above. -/
def emitCapabilitiesEvent (st : HandlerState) (presence : Presence) :
    Option (HandlerState × (String × EmittedCaps)) :=
  match presence.caps with
  | none => none
  | some c =>
    let fullNode := c.node ++ "#" ++ c.ver
    match jmGet st.cache fullNode with
    | some (some cached) =>
      let mainCaps := deepClone cached
      match concatExtFeatures st fullNode (mainCaps.rawFeatures.map some) c.ext with
      | none => none
      | some rawCat =>
        let rawDeduped := removeDuplicates rawCat
        some (st, (presence.fromJid,
          { node := mainCaps.node, rawFeatures := rawDeduped,
            features := parseCommonFeaturesOv rawDeduped,
            clientName := mainCaps.clientName }))
    | _ => none

/-- `_emitEventIfFullyLoaded(jid)`: emits iff the main set for the buddy's
fingerprint is (truthily) cached and the buddy's `pendingExts` array is
empty.  Reading `.originalPresence` throws when the jid has no record. -/
def emitEventIfFullyLoaded (st : HandlerState) (jid : String) :
    Option (HandlerState × List (String × EmittedCaps)) :=
  match jmGet st.pendingBuddies jid with
  | none => none
  | some bId =>
    match jmGet st.buddyHeap bId with
    | none => none
    | some b =>
      match b.originalPresence.caps with
      | none => none
      | some pc =>
        let fullCapsNode := pc.node ++ "#" ++ pc.ver
        if capsTruthy (jmGet st.cache fullCapsNode) && b.pendingExts.isEmpty then
          match emitCapabilitiesEvent st b.originalPresence with
          | none => none
          | some (st', ev) => some (st', [ev])
        else some (st, [])

/-- `indexOf` + `splice(…, 1)` on a `pendingExts` array: removes the first
occurrence if present; `indexOf` of an absent value is `-1` and
`splice(-1, 1)` removes the last element. -/
def spliceIndexOf (l : List Nat) (x : Nat) : List Nat :=
  if x ∈ l then
    match l with
    | [] => []
    | y :: ys => if y = x then ys else y :: spliceIndexOf ys x
  else l.dropLast

/-- `_handlePresence(stanza)`: fast path (everything cached) emits at once;
otherwise (re-)creates the pending-buddy record, requests the main
capabilities when uncached, and requests every uncached extension. -/
def handlePresence (st : HandlerState) (stanza : Presence) :
    Option (HandlerState × Effects) :=
  match stanza.caps with
  | none => some (st, Effects.nil)
  | some c =>
    let fullNode := c.node ++ "#" ++ c.ver
    let uncachedExts : List String :=
      match c.ext with
      | some exts => exts.filter (fun e =>
          match jmGet st.extCache fullNode with
          | none => true
          | some innerC => (jmGet innerC e).isNone)
      | none => []
    if capsTruthy (jmGet st.cache fullNode) && uncachedExts.isEmpty then
      match emitCapabilitiesEvent st stanza with
      | none => none
      | some (st', ev) => some (st', { queries := [], emits := [ev] })
    else
      let bId := st.nextBuddyId
      let st1 := { st with
        nextBuddyId := bId + 1,
        buddyHeap := jmSet st.buddyHeap bId
          { jid := stanza.fromJid, pendingExts := [], originalPresence := stanza },
        pendingBuddies := jmSet st.pendingBuddies stanza.fromJid bId }
      let afterMain : Option (HandlerState × List SentQuery) :=
        if capsTruthy (jmGet st1.cache fullNode) then some (st1, [])
        else getCapabilitiesFromPresence st1 stanza
      match afterMain with
      | none => none
      | some (st2, qs1) =>
        if uncachedExts.isEmpty then
          some (st2, { queries := qs1, emits := [] })
        else
          let st3 :=
            match jmGet st2.pendingExt fullNode with
            | none => { st2 with pendingExt := jmSet st2.pendingExt fullNode [] }
            | some _ => st2
          let folded :=
            uncachedExts.foldlM (fun (acc : HandlerState × List SentQuery) e =>
              match getExtensionFromPresence acc.1 stanza e with
              | none => none
              | some (s', qs') => some (s', acc.2 ++ qs')) (st3, [])
          match folded with
          | none => none
          | some (st4, qs2) =>
            some (st4, { queries := qs1 ++ qs2, emits := [] })

/-- `_handleIQExt(stanza, request)`: caches the extension's raw features,
splices the waiter array out of each waiting buddy's `pendingExts`,
re-checks each such buddy for full load, and finally deletes the pending
entry for the pair.  An error reply (no parsed capabilities) throws at
`caps.rawFeatures`. -/
def handleIQExt (st : HandlerState) (stanza : IQStanza) (request : Request) :
    Option (HandlerState × List (String × EmittedCaps)) :=
  let fullNode := request.fullNode
  match jmGet st.pendingExt fullNode with
  | none => none
  | some inner =>
    match request.rext with
    | none => none
    | some ext =>
      match jmGet inner ext with
      | none => none
      | some aId =>
        let st1 :=
          match jmGet st.extCache fullNode with
          | none => { st with extCache := jmSet st.extCache fullNode [] }
          | some _ => st
        match stanza.capabilities with
        | none => none
        | some caps =>
          let st2 :=
            match jmGet st1.extCache fullNode with
            | none => st1
            | some innerC =>
              { st1 with extCache := jmSet st1.extCache fullNode
                           (jmSet innerC ext caps.rawFeatures) }
          let arr := (jmGet st2.waitArrs aId).getD []
          let folded :=
            arr.foldlM (fun (acc : HandlerState × List (String × EmittedCaps)) bId =>
              match jmGet acc.1.buddyHeap bId with
              | none => none
              | some b =>
                let b' := { b with pendingExts := spliceIndexOf b.pendingExts aId }
                let s1 := { acc.1 with buddyHeap := jmSet acc.1.buddyHeap bId b' }
                match emitEventIfFullyLoaded s1 b.jid with
                | none => none
                | some (s2, es') => some (s2, acc.2 ++ es')) (st2, [])
          match folded with
          | none => none
          | some (st3, emits) =>
            match jmGet st3.pendingExt fullNode with
            | none => none
            | some inner3 =>
              some ({ st3 with pendingExt := jmSet st3.pendingExt fullNode
                                 (jmDel inner3 ext) }, emits)

/-- `_handleIQCaps(stanza, request)`: stores the (possibly `undefined`)
parsed capabilities under the request's `fullNode`, then re-checks every
waiting buddy and drops the `_pending` record. -/
def handleIQCaps (st : HandlerState) (stanza : IQStanza) (request : Request) :
    Option (HandlerState × List (String × EmittedCaps)) :=
  let node := request.fullNode
  let st1 := { st with cache := jmSet st.cache node stanza.capabilities }
  match jmGet st1.pending node with
  | none => some (st1, [])
  | some pm =>
    let folded :=
      pm.buddies.foldlM (fun (acc : HandlerState × List (String × EmittedCaps)) jid =>
        match emitEventIfFullyLoaded acc.1 jid with
        | none => none
        | some (s', es') => some (s', acc.2 ++ es')) (st1, [])
    match folded with
    | none => none
    | some (st2, emits) =>
      some ({ st2 with pending := jmDel st2.pending node }, emits)

/-- `_handleIQ(stanza)`: an id with no tracked request is ignored outright;
otherwise the request is routed on its recorded `type` and the tracking
entry deleted afterwards. -/
def handleIQ (st : HandlerState) (stanza : IQStanza) :
    Option (HandlerState × Effects) :=
  match jmGet st.iqRequests stanza.id with
  | none => some (st, Effects.nil)
  | some request =>
    let routed :=
      if request.rtype = "ext" then handleIQExt st stanza request
      else handleIQCaps st stanza request
    match routed with
    | none => none
    | some (st1, emits) =>
      some ({ st1 with iqRequests := jmDel st1.iqRequests stanza.id },
            { queries := [], emits := emits })

/-- One inbound stanza, as dispatched by the middleware function returned by
`capabilities(fn)`. -/
inductive Ev where
  | pres (p : Presence)
  | iq (s : IQStanza)
deriving DecidableEq, Repr

/-- Handle one inbound stanza. -/
def step (st : HandlerState) : Ev → Option (HandlerState × Effects)
  | Ev.pres p => handlePresence st p
  | Ev.iq s => handleIQ st s

/-- Run a sequence of inbound stanzas, stopping at an escaped exception. -/
def runSt : HandlerState → List Ev → Option HandlerState
  | st, [] => some st
  | st, e :: es =>
    match step st e with
    | none => none
    | some (st', _) => runSt st' es

/-- Run a sequence of inbound stanzas and collect all effects. -/
def runFx : HandlerState → List Ev → Option (HandlerState × Effects)
  | st, [] => some (st, Effects.nil)
  | st, e :: es =>
    match step st e with
    | none => none
    | some (st', eff) =>
      match runFx st' es with
      | none => none
      | some (st'', eff') =>
        some (st'', { queries := eff.queries ++ eff'.queries,
                      emits := eff.emits ++ eff'.emits })

/-- A handler state reachable from `new Handler()` by some sequence of
inbound stanzas none of which escapes with an exception. -/
def Reachable (st : HandlerState) : Prop :=
  ∃ evs, runSt initState evs = some st

/-- The identity-relevant projection of the buddy heap: which ids exist and
their immutable `jid` / `originalPresence` fields (only `pendingExts` is ever
mutated in place). -/
def heapShape (h : List (Nat × Buddy)) : List (Nat × (String × Presence)) :=
  h.map (fun p => (p.1, (p.2.jid, p.2.originalPresence)))

/-- The coordinator's internal well-formedness invariant, maintained by every
successfully handled inbound stanza.  `mainUnique`/`extUnique` are the
request-coalescing invariants; `mainPending`/`extPending` tie every tracked
request to its pending entry; `mainUncached` records that a main query is
only ever outstanding for an uncached fingerprint; the remaining fields are
bookkeeping (key uniqueness, and every registered waiter resolves to a
well-formed pending-buddy record). -/
structure Inv (st : HandlerState) : Prop where
  iqNodup : (st.iqRequests.map Prod.fst).Nodup
  pendingNodup : (st.pending.map Prod.fst).Nodup
  pendingExtInnerNodup : ∀ F inner, jmGet st.pendingExt F = some inner →
    (inner.map Prod.fst).Nodup
  mainUnique : ∀ a b ra rb, jmGet st.iqRequests a = some ra →
    jmGet st.iqRequests b = some rb → ra.rtype ≠ "ext" → rb.rtype ≠ "ext" →
    ra.fullNode = rb.fullNode → a = b
  extUnique : ∀ a b ra rb, jmGet st.iqRequests a = some ra →
    jmGet st.iqRequests b = some rb → ra.rtype = "ext" → rb.rtype = "ext" →
    ra.fullNode = rb.fullNode → ra.rext = rb.rext → a = b
  mainPending : ∀ id r, jmGet st.iqRequests id = some r → r.rtype ≠ "ext" →
    (jmGet st.pending r.fullNode).isSome = true
  extPending : ∀ id r, jmGet st.iqRequests id = some r → r.rtype = "ext" →
    ∃ e inner aId, r.rext = some e ∧ jmGet st.pendingExt r.fullNode = some inner ∧
      jmGet inner e = some aId
  mainUncached : ∀ id r, jmGet st.iqRequests id = some r → r.rtype ≠ "ext" →
    capsTruthy (jmGet st.cache r.fullNode) = false
  buddiesRegistered : ∀ F pm, jmGet st.pending F = some pm → ∀ jid ∈ pm.buddies,
    (jmGet st.pendingBuddies jid).isSome = true
  buddyWf : ∀ jid bId, jmGet st.pendingBuddies jid = some bId →
    ∃ b, jmGet st.buddyHeap bId = some b ∧ b.originalPresence.caps.isSome = true

/-- Two main-cache contents with the same keys and the same truthiness at
every binding (stored payloads may differ arbitrarily). -/
def CacheRel (m1 m2 : List (String × Option Caps)) : Prop :=
  List.Forall₂ (fun a b => a.1 = b.1 ∧ a.2.isSome = b.2.isSome) m1 m2

/-- Two extension-cache contents with the same outer keys and the same inner
key sets (stored feature lists may differ arbitrarily). -/
def ExtRel (m1 m2 : List (String × List (String × List String))) : Prop :=
  List.Forall₂ (fun a b => a.1 = b.1 ∧ a.2.map Prod.fst = b.2.map Prod.fst) m1 m2

/-- Two handler states that differ at most in cached payload values: all
control-relevant components are equal, the caches agree up to `CacheRel` /
`ExtRel`. -/
def StRel (s1 s2 : HandlerState) : Prop :=
  CacheRel s1.cache s2.cache ∧ ExtRel s1.extCache s2.extCache ∧
  s1.pending = s2.pending ∧ s1.pendingExt = s2.pendingExt ∧
  s1.pendingBuddies = s2.pendingBuddies ∧ s1.iqRequests = s2.iqRequests ∧
  s1.iqCount = s2.iqCount ∧ s1.buddyHeap = s2.buddyHeap ∧
  s1.waitArrs = s2.waitArrs ∧ s1.nextBuddyId = s2.nextBuddyId ∧
  s1.nextArrId = s2.nextArrId

/-! ## Theorems -/

theorem jmGet_set_self {κ α : Type} [DecidableEq κ] (m : List (κ × α)) (k : κ) (v : α) :
    jmGet (jmSet m k v) k = some v := by
  induction m with
  | nil => simp [jmGet, jmSet]
  | cons p rest ih =>
    obtain ⟨k', v'⟩ := p
    by_cases h : k = k' <;> simp [jmGet, jmSet, h, ih]

theorem jmGet_set_ne {κ α : Type} [DecidableEq κ] (m : List (κ × α)) (k x : κ) (v : α)
    (hne : x ≠ k) : jmGet (jmSet m k v) x = jmGet m x := by
  induction m with
  | nil => simp [jmGet, jmSet, hne]
  | cons p rest ih =>
    obtain ⟨k', v'⟩ := p
    by_cases h : k = k'
    · subst h
      simp [jmGet, jmSet, hne]
    · by_cases h2 : x = k' <;> simp [jmGet, jmSet, h, h2, ih]

theorem jmGet_del_self {κ α : Type} [DecidableEq κ] (m : List (κ × α)) (k : κ)
    (hnd : (m.map Prod.fst).Nodup) : jmGet (jmDel m k) k = none := by
  induction m with
  | nil => simp [jmGet, jmDel]
  | cons p rest ih =>
    obtain ⟨k', v'⟩ := p
    simp only [List.map_cons, List.nodup_cons] at hnd
    by_cases h : k = k'
    · subst h
      -- the key does not occur again in `rest`
      clear ih
      simp only [jmDel, if_pos rfl]
      induction rest with
      | nil => simp [jmGet]
      | cons q rest2 ih2 =>
        obtain ⟨k2, v2⟩ := q
        simp only [List.map_cons, List.mem_cons, List.nodup_cons] at hnd
        have hne : k ≠ k2 := fun he => hnd.1 (Or.inl (he ▸ rfl))
        have step : jmGet ((k2, v2) :: rest2) k = jmGet rest2 k := by simp [jmGet, hne]
        exact step.trans (ih2 ⟨fun hm => hnd.1 (Or.inr hm), hnd.2.2⟩)
    · simp [jmDel, jmGet, h, ih hnd.2]

theorem jmGet_del_ne {κ α : Type} [DecidableEq κ] (m : List (κ × α)) (k x : κ)
    (hne : x ≠ k) : jmGet (jmDel m k) x = jmGet m x := by
  induction m with
  | nil => simp [jmGet, jmDel]
  | cons p rest ih =>
    obtain ⟨k', v'⟩ := p
    by_cases h : k = k'
    · subst h
      simp [jmDel, jmGet, hne]
    · by_cases h2 : x = k' <;> simp [jmDel, jmGet, h, h2, ih]


/-! ### Purity of the emission path -/

theorem emitCapabilitiesEvent_state {st st' : HandlerState} {p : Presence}
    {ev : String × EmittedCaps}
    (h : emitCapabilitiesEvent st p = some (st', ev)) : st' = st := by
  cases hpc : p.caps with
  | none => simp [emitCapabilitiesEvent, hpc] at h
  | some c =>
    cases hcache : jmGet st.cache (c.node ++ "#" ++ c.ver) with
    | none => simp [emitCapabilitiesEvent, hpc, hcache] at h
    | some v =>
      cases v with
      | none => simp [emitCapabilitiesEvent, hpc, hcache] at h
      | some cached =>
        cases hcat : concatExtFeatures st (c.node ++ "#" ++ c.ver)
            (cached.rawFeatures.map some) c.ext with
        | none => simp [emitCapabilitiesEvent, deepClone, hpc, hcache, hcat] at h
        | some rawCat =>
          simp [emitCapabilitiesEvent, deepClone, hpc, hcache, hcat] at h
          exact h.1.symm

theorem emitEventIfFullyLoaded_state {st st' : HandlerState} {jid : String}
    {es : List (String × EmittedCaps)}
    (h : emitEventIfFullyLoaded st jid = some (st', es)) : st' = st := by
  cases hpb : jmGet st.pendingBuddies jid with
  | none => simp [emitEventIfFullyLoaded, hpb] at h
  | some bId =>
    cases hbh : jmGet st.buddyHeap bId with
    | none => simp [emitEventIfFullyLoaded, hpb, hbh] at h
    | some b =>
      cases hbc : b.originalPresence.caps with
      | none => simp [emitEventIfFullyLoaded, hpb, hbh, hbc] at h
      | some pc =>
        by_cases hcond : (capsTruthy (jmGet st.cache (pc.node ++ "#" ++ pc.ver))
            && b.pendingExts.isEmpty) = true
        · cases hemit : emitCapabilitiesEvent st b.originalPresence with
          | none => simp [emitEventIfFullyLoaded, hpb, hbh, hbc, hcond, hemit] at h
          | some r =>
            obtain ⟨st2, ev⟩ := r
            simp [emitEventIfFullyLoaded, hpb, hbh, hbc, hcond, hemit] at h
            exact h.1.symm.trans (emitCapabilitiesEvent_state hemit)
        · simp [emitEventIfFullyLoaded, hpb, hbh, hbc, hcond] at h
          exact h.1.symm

/-! ### C3: unknown or already-resolved correlation ids are ignored -/

/-- C3: an IQ response whose id has no entry in `_iqRequests` (never issued,
or already resolved and deleted) leaves the whole handler state unchanged,
emits no event, sends no query, and raises no exception. -/
theorem c3_unknown_correlation_ignored (st : HandlerState) (r : IQStanza)
    (h : jmGet st.iqRequests r.id = none) :
    handleIQ st r = some (st, Effects.nil) := by
  unfold handleIQ
  rw [h]

/-- Witness for C3 at a concrete input. -/
theorem c3_unknown_correlation_ignored_witness :
    jmGet initState.iqRequests "caps-9" = none ∧
    handleIQ initState { id := "caps-9", capabilities := none } =
      some (initState, Effects.nil) :=
  ⟨rfl, c3_unknown_correlation_ignored initState
    { id := "caps-9", capabilities := none } rfl⟩

/-! ### C1: duplicate emission on re-announcement (code bug) -/

/-- C1: REFUTED by the code.  When the same peer announces the same uncached
fingerprint twice before the discovery response arrives, `_handlePresence`
pushes the jid into `_pending[fullNode].buddies` a second time (and never
de-duplicates, nor is the pending-buddy record ever released), so the single
response fires the `capabilities` event twice for that peer — the
at-most-once-per-announcement-cycle property fails even though only one
query was sent. -/
theorem c1_duplicate_emission_on_reannounce :
    (runFx initState
      [Ev.pres { fromJid := "romeo@x",
                 caps := some { node := "app", ver := "v1", hash := none, ext := none } },
       Ev.pres { fromJid := "romeo@x",
                 caps := some { node := "app", ver := "v1", hash := none, ext := none } },
       Ev.iq { id := "caps-1",
               capabilities := some { node := some "app#v1",
                                      rawFeatures := ["jabber:iq:version"],
                                      features := [], clientName := none } }]).map
      (fun r => (r.2.queries.length, r.2.emits.map Prod.fst))
    = some (1, ["romeo@x", "romeo@x"]) := by rfl

/-! ### C6: the pending-buddy record is never released (code bug) -/

/-- C6: REFUTED by the code.  After a peer is fully resolved and its
`capabilities` event has fired, `_pendingBuddies` still contains the peer's
record — no code path ever deletes it, so looking the identity up again
still yields the record instead of failing. -/
theorem c6_pending_record_retained_after_emit :
    (runFx initState
      [Ev.pres { fromJid := "romeo@x",
                 caps := some { node := "app", ver := "v1", hash := none, ext := none } },
       Ev.iq { id := "caps-1",
               capabilities := some { node := some "app#v1",
                                      rawFeatures := ["jabber:iq:version"],
                                      features := [], clientName := none } }]).map
      (fun r => (r.2.emits.map Prod.fst, (jmGet r.1.pendingBuddies "romeo@x").isSome))
    = some (["romeo@x"], true) := by rfl

/-! ### C5: the node string of an extension discovery query -/

/-- C5: REFUTED as stated.  Announcing node `app`, ver `v1` (fingerprint
`app#v1`) with uncached extension `ext1` sends the main query for `app#v1`
and the extension query for `app#ext1` — `caps.node + '#' + ext`, without
the verification string — not for `app#v1#ext1` as the claim requires. -/
theorem c5_ext_query_node_counterexample :
    (runFx initState
      [Ev.pres { fromJid := "romeo@x",
                 caps := some { node := "app", ver := "v1", hash := none,
                                ext := some ["ext1"] } }]).map
      (fun r => r.2.queries.map SentQuery.queryNode)
    = some ["app#v1", "app#ext1"] ∧ ("app#ext1" : String) ≠ "app#v1#ext1" :=
  ⟨by rfl, by decide⟩

/-- C5 (amended): every query `_getExtensionFromPresence` sends for extension
`ext` carries the query node `caps.node + '#' + ext` (the verification string
is not part of it), and every query `_getCapabilitiesFromPresence` sends
carries the full fingerprint `caps.node + '#' + caps.ver`. -/
theorem c5_amended_query_node_shapes (st : HandlerState) (stanza : Presence)
    (c : PresCaps) (ext : String) (qs qs' : List SentQuery)
    (hc : stanza.caps = some c)
    (hext : (getExtensionFromPresence st stanza ext).map Prod.snd = some qs)
    (hmain : (getCapabilitiesFromPresence st stanza).map Prod.snd = some qs') :
    qs.map SentQuery.queryNode = List.replicate qs.length (c.node ++ "#" ++ ext) ∧
    qs'.map SentQuery.queryNode = List.replicate qs'.length (c.node ++ "#" ++ c.ver) := by
  constructor
  · cases hpe : jmGet st.pendingExt (c.node ++ "#" ++ c.ver) with
    | none => simp [getExtensionFromPresence, hc, hpe] at hext
    | some inner =>
      have hqs : qs = [] ∨ ∃ q : SentQuery, qs = [q] ∧ q.queryNode = c.node ++ "#" ++ ext := by
        cases hin : jmGet inner ext with
        | none =>
          simp only [getExtensionFromPresence, hc, hpe, hin, sendDiscoQuery,
            jmGet_set_self, Option.map_eq_some'] at hext
          obtain ⟨⟨st1, qs1⟩, hrun, rfl⟩ := hext
          cases hpb : jmGet st.pendingBuddies stanza.fromJid with
          | none => simp [hpb] at hrun
          | some bId =>
            cases hbh : jmGet st.buddyHeap bId with
            | none => simp [hpb, hbh] at hrun
            | some b =>
              simp [hpb, hbh] at hrun
              right
              exact ⟨_, hrun.2.symm, rfl⟩
        | some aId =>
          simp only [getExtensionFromPresence, hc, hpe, hin,
            Option.map_eq_some'] at hext
          obtain ⟨⟨st1, qs1⟩, hrun, rfl⟩ := hext
          cases hpb : jmGet st.pendingBuddies stanza.fromJid with
          | none => simp [hpb] at hrun
          | some bId =>
            cases hbh : jmGet st.buddyHeap bId with
            | none => simp [hpb, hbh] at hrun
            | some b =>
              simp [hpb, hbh] at hrun
              left
              simpa using hrun.2.symm
      rcases hqs with rfl | ⟨q, rfl, hq⟩
      · rfl
      · simp [hq]
  · have hqs : qs' = [] ∨ ∃ q : SentQuery, qs' = [q] ∧ q.queryNode = c.node ++ "#" ++ c.ver := by
      cases hp : jmGet st.pending (c.node ++ "#" ++ c.ver) with
      | none =>
        simp only [getCapabilitiesFromPresence, hc, hp, sendDiscoQuery,
          jmGet_set_self, Option.map_eq_some'] at hmain
        obtain ⟨⟨st1, qs1⟩, hrun, rfl⟩ := hmain
        simp at hrun
        right
        exact ⟨_, hrun.2.symm, rfl⟩
      | some pm =>
        simp only [getCapabilitiesFromPresence, hc, hp,
          Option.map_eq_some'] at hmain
        obtain ⟨⟨st1, qs1⟩, hrun, rfl⟩ := hmain
        simp at hrun
        left
        simpa using hrun.2.symm
    rcases hqs with rfl | ⟨q, rfl, hq⟩
    · rfl
    · simp [hq]

/-- Witness for C5 (amended) at a concrete input: a state with a pending
extension map and a registered pending buddy for `romeo@x`. -/
theorem c5_amended_query_node_shapes_witness :
    ([{ toJid := "romeo@x", id := "caps-1", queryNode := "app#ext1" }] : List SentQuery).map
        SentQuery.queryNode = List.replicate 1 ("app" ++ "#" ++ "ext1") ∧
    ([{ toJid := "romeo@x", id := "caps-1", queryNode := "app#v1" }] : List SentQuery).map
        SentQuery.queryNode = List.replicate 1 ("app" ++ "#" ++ "v1") :=
  c5_amended_query_node_shapes
    { initState with
        pendingExt := [("app#v1", [])],
        pendingBuddies := [("romeo@x", 0)],
        buddyHeap := [(0, ⟨"romeo@x", [], ⟨"romeo@x", some ⟨"app", "v1", none, some ["ext1"]⟩⟩⟩)] }
    ⟨"romeo@x", some ⟨"app", "v1", none, some ["ext1"]⟩⟩
    ⟨"app", "v1", none, some ["ext1"]⟩
    "ext1" _ _ rfl (by rfl) (by rfl)

/-! ### C4: cache write-once? -/

/-- C4: REFUTED as stated.  `MemoryCache.saveCapabilities` is an
unconditional property assignment: a second put for an already-present key
replaces the stored CapabilitySet (last-write-wins), not a no-op. -/
theorem c4_cache_overwrite_counterexample :
    ((MemoryCache.init.saveCapabilities "app#v1"
        ⟨none, ["f1"], [], none⟩).saveCapabilities "app#v1"
        ⟨none, ["f2"], [], none⟩).getCapabilities "app#v1"
      = some ⟨none, ["f2"], [], none⟩ ∧
    (⟨none, ["f2"], [], none⟩ : Caps) ≠ ⟨none, ["f1"], [], none⟩ :=
  ⟨by rfl, by decide⟩

/-! ### C7: error-type discovery responses -/

/-- C7: REFUTED as stated.  An error-type reply to an *extension* discovery
query — the parser attaches no `capabilities` object to a `type='error'`
stanza, as the second conjunct shows — makes `_handleIQExt` throw a
TypeError at `caps.rawFeatures`; the exception escapes the coordinator
instead of the silent discard the claim requires. -/
theorem c7_ext_error_reply_counterexample :
    runSt initState
      [Ev.pres ⟨"romeo@x", some ⟨"app", "v1", none, some ["ext1"]⟩⟩,
       Ev.iq ⟨"caps-2", none⟩] = none ∧
    parseIQCapabilities ⟨"caps", "error", some ⟨some "app#ext1", [], none⟩⟩ = none :=
  ⟨by rfl, by rfl⟩

/-! ### C8: the merge step is read-only and repeatable -/

/-- C8: the merge-and-emit step never mutates the handler state — the caches
in particular — (every in-place update in the source lands on the deep
clone), and re-running it against the unchanged caches yields the identical
merged event, `namedFeatures` map included. -/
theorem c8_merge_read_only_idempotent (st st' : HandlerState) (p : Presence)
    (ev : String × EmittedCaps)
    (h : emitCapabilitiesEvent st p = some (st', ev)) :
    st' = st ∧ emitCapabilitiesEvent st' p = some (st', ev) := by
  have hst := emitCapabilitiesEvent_state h
  subst hst
  exact ⟨rfl, h⟩

/-- Witness for C8 at a concrete input. -/
theorem c8_merge_read_only_idempotent_witness :
    ({ initState with cache := [("app#v1", some ⟨some "app#v1", [], [], none⟩)] } : HandlerState)
      = { initState with cache := [("app#v1", some ⟨some "app#v1", [], [], none⟩)] } ∧
    emitCapabilitiesEvent
      { initState with cache := [("app#v1", some ⟨some "app#v1", [], [], none⟩)] }
      ⟨"romeo@x", some ⟨"app", "v1", none, none⟩⟩
    = some ({ initState with cache := [("app#v1", some ⟨some "app#v1", [], [], none⟩)] },
            ("romeo@x", ⟨some "app#v1", [], parseCommonFeaturesOv [], none⟩)) :=
  c8_merge_read_only_idempotent _ _ _ _ (by rfl)

/-! ### C10: absent ext attribute parses to [""] and forces the slow path -/

/-- C10: a presence whose caps element has no `ext` attribute is parsed with
extension list `[""]` (one empty-string extension, not an empty list), so
even with the main set cached the coordinator takes the slow path: it emits
nothing, registers a pending buddy, and sends exactly one extension
discovery query, whose query node is `node + '#'`. -/
theorem c10_missing_ext_attr_slow_path (xml : PresenceXml) (ce : CElem)
    (st : HandlerState)
    (hce : xml.c = some ce) (hxe : ce.ext = none)
    (hcached : capsTruthy (jmGet st.cache (ce.node ++ "#" ++ ce.ver)) = true)
    (hpe : jmGet st.pendingExt (ce.node ++ "#" ++ ce.ver) = none)
    (hun : ∀ i, jmGet st.extCache (ce.node ++ "#" ++ ce.ver) = some i →
      jmGet i "" = none) :
    (parsePresence xml).caps = some ⟨ce.node, ce.ver, ce.hash, some [""]⟩ ∧
    ∃ st' eff, handlePresence st (parsePresence xml) = some (st', eff) ∧
      eff.emits = [] ∧
      eff.queries.map SentQuery.queryNode = [ce.node ++ "#"] ∧
      (jmGet st'.pendingBuddies xml.fromJid).isSome = true := by
  have hp : (parsePresence xml).caps = some ⟨ce.node, ce.ver, ce.hash, some [""]⟩ := by
    simp [parsePresence, hce, hxe]
    rfl
  refine ⟨hp, ?_⟩
  have hfrom : (parsePresence xml).fromJid = xml.fromJid := rfl
  have hfilter : (List.filter (fun e =>
      match jmGet st.extCache (ce.node ++ "#" ++ ce.ver) with
      | none => true
      | some innerC => (jmGet innerC e).isNone) [""]) = [""] := by
    cases hxc : jmGet st.extCache (ce.node ++ "#" ++ ce.ver) with
    | none => simp [List.filter, hxc]
    | some i => simp [List.filter, hxc, hun i hxc]
  simp only [handlePresence, getExtensionFromPresence, sendDiscoQuery, hp, hfrom,
    hfilter, hcached, hpe, jmGet_set_self, List.isEmpty_cons, Bool.and_false,
    Bool.false_eq_true, if_false, if_true, List.foldlM, jmGet, jmSet, bind,
    Option.bind]
  refine ⟨_, _, rfl, rfl, ?_, ?_⟩
  · simp
  · simp [jmGet_set_self]

/-- Witness for C10 at a concrete input: main set cached, empty state
otherwise. -/
theorem c10_missing_ext_attr_slow_path_witness :
    (parsePresence ⟨"juliet@x", some ⟨"app", "v1", none, none⟩⟩).caps
      = some ⟨"app", "v1", none, some [""]⟩ ∧
    ∃ st' eff,
      handlePresence
        { initState with
            cache := [("app#v1", some ⟨some "app#v1", ["jabber:iq:version"], [], none⟩)] }
        (parsePresence ⟨"juliet@x", some ⟨"app", "v1", none, none⟩⟩) = some (st', eff) ∧
      eff.emits = [] ∧
      eff.queries.map SentQuery.queryNode = ["app" ++ "#"] ∧
      (jmGet st'.pendingBuddies "juliet@x").isSome = true :=
  c10_missing_ext_attr_slow_path _ ⟨"app", "v1", none, none⟩ _ rfl rfl (by rfl) (by rfl)
    (fun i h => by cases h)


/-! ### Further association-list lemmas -/

theorem jmGet_set {κ α : Type} [DecidableEq κ] (m : List (κ × α)) (k x : κ) (v : α) :
    jmGet (jmSet m k v) x = if x = k then some v else jmGet m x := by
  by_cases h : x = k
  · subst h
    simp [jmGet_set_self]
  · simp [jmGet_set_ne m k x v h, h]

theorem jmGet_del {κ α : Type} [DecidableEq κ] (m : List (κ × α)) (k x : κ)
    (hnd : (m.map Prod.fst).Nodup) :
    jmGet (jmDel m k) x = if x = k then none else jmGet m x := by
  by_cases h : x = k
  · subst h
    simp [jmGet_del_self m x hnd]
  · simp [jmGet_del_ne m k x h, h]

theorem jmSet_keys {κ α : Type} [DecidableEq κ] (m : List (κ × α)) (k : κ) (v : α) :
    (jmSet m k v).map Prod.fst =
      if k ∈ m.map Prod.fst then m.map Prod.fst else m.map Prod.fst ++ [k] := by
  induction m with
  | nil => simp [jmSet]
  | cons p rest ih =>
    obtain ⟨k', v'⟩ := p
    by_cases h : k = k'
    · subst h
      simp [jmSet]
    · simp only [jmSet, if_neg h, List.map_cons, ih, List.mem_cons]
      by_cases hm : k ∈ rest.map Prod.fst
      · simp [hm, h]
      · simp [hm, h]

theorem jmSet_keys_nodup {κ α : Type} [DecidableEq κ] (m : List (κ × α)) (k : κ) (v : α)
    (hnd : (m.map Prod.fst).Nodup) : ((jmSet m k v).map Prod.fst).Nodup := by
  rw [jmSet_keys]
  by_cases hm : k ∈ m.map Prod.fst
  · simpa [hm] using hnd
  · simp only [hm, if_false]
    refine List.Nodup.append hnd (List.nodup_singleton k) ?_
    intro a ha hk
    exact hm ((List.mem_singleton.mp hk) ▸ ha)

theorem jmDel_keys_sublist {κ α : Type} [DecidableEq κ] (m : List (κ × α)) (k : κ) :
    ((jmDel m k).map Prod.fst).Sublist (m.map Prod.fst) := by
  induction m with
  | nil => simp [jmDel]
  | cons p rest ih =>
    obtain ⟨k', v'⟩ := p
    by_cases h : k = k'
    · simp [jmDel, h]
    · simpa [jmDel, h] using ih.cons₂ k'

theorem jmDel_keys_nodup {κ α : Type} [DecidableEq κ] (m : List (κ × α)) (k : κ)
    (hnd : (m.map Prod.fst).Nodup) : ((jmDel m k).map Prod.fst).Nodup :=
  hnd.sublist (jmDel_keys_sublist m k)

theorem jmGet_isSome_set {κ α : Type} [DecidableEq κ] (m : List (κ × α)) (k x : κ) (v : α)
    (h : (jmGet m x).isSome = true) : (jmGet (jmSet m k v) x).isSome = true := by
  rw [jmGet_set]
  by_cases hx : x = k <;> simp [hx, h]

/-! ### Characterizations of the response-handling path -/

theorem emitFold_state (l : List String) (s0 s' : HandlerState)
    (es0 es' : List (String × EmittedCaps))
    (h : l.foldlM (fun (acc : HandlerState × List (String × EmittedCaps)) jid =>
        match emitEventIfFullyLoaded acc.1 jid with
        | none => none
        | some (s2, es2) => some (s2, acc.2 ++ es2)) (s0, es0) = some (s', es')) :
    s' = s0 := by
  induction l generalizing s0 es0 with
  | nil =>
    simp only [List.foldlM, Option.pure_def, Option.some.injEq] at h
    exact congrArg Prod.fst h.symm
  | cons jid rest ih =>
    simp only [List.foldlM] at h
    cases he : emitEventIfFullyLoaded s0 jid with
    | none => rw [he] at h; simp at h
    | some r =>
      obtain ⟨s1, es1⟩ := r
      rw [he] at h
      simp only [Option.pure_def, Option.bind_eq_bind, Option.some_bind] at h
      have hs1 : s1 = s0 := emitEventIfFullyLoaded_state he
      subst hs1
      exact ih _ _ h

theorem handleIQCaps_char (st st' : HandlerState) (r : IQStanza) (req : Request)
    (es : List (String × EmittedCaps))
    (h : handleIQCaps st r req = some (st', es)) :
    st'.cache = jmSet st.cache req.fullNode r.capabilities ∧
    st'.extCache = st.extCache ∧
    st'.pendingExt = st.pendingExt ∧
    st'.pendingBuddies = st.pendingBuddies ∧
    st'.buddyHeap = st.buddyHeap ∧
    st'.waitArrs = st.waitArrs ∧
    st'.iqRequests = st.iqRequests ∧
    st'.iqCount = st.iqCount ∧
    st'.nextBuddyId = st.nextBuddyId ∧
    st'.nextArrId = st.nextArrId ∧
    ((jmGet st.pending req.fullNode = none ∧ st'.pending = st.pending) ∨
     (∃ pm, jmGet st.pending req.fullNode = some pm ∧
        st'.pending = jmDel st.pending req.fullNode)) := by
  unfold handleIQCaps at h
  cases hp : jmGet st.pending req.fullNode with
  | none =>
    simp only [hp, Option.some.injEq, Prod.mk.injEq] at h
    obtain ⟨h1, h2⟩ := h
    subst h1
    refine ⟨rfl, rfl, rfl, rfl, rfl, rfl, rfl, rfl, rfl, rfl, Or.inl ⟨rfl, rfl⟩⟩
  | some pm =>
    simp only [hp] at h
    cases hf : pm.buddies.foldlM
        (fun (acc : HandlerState × List (String × EmittedCaps)) jid =>
          match emitEventIfFullyLoaded acc.1 jid with
          | none => none
          | some (s2, es2) => some (s2, acc.2 ++ es2))
        ({ st with cache := jmSet st.cache req.fullNode r.capabilities }, []) with
    | none => rw [hf] at h; exact Option.noConfusion h
    | some p2 =>
      obtain ⟨st2, es2⟩ := p2
      rw [hf] at h
      have hst2 := emitFold_state _ _ _ _ _ hf
      subst hst2
      injection h with h
      injection h with h1 h2
      subst h1
      refine ⟨rfl, rfl, rfl, rfl, rfl, rfl, rfl, rfl, rfl, rfl, Or.inr ⟨pm, rfl, rfl⟩⟩

theorem heapShape_set (h : List (Nat × Buddy)) (k : Nat) (b b' : Buddy)
    (hg : jmGet h k = some b) (hj : b'.jid = b.jid)
    (ho : b'.originalPresence = b.originalPresence) :
    heapShape (jmSet h k b') = heapShape h := by
  induction h with
  | nil => simp [jmGet] at hg
  | cons p rest ih =>
    obtain ⟨k', v'⟩ := p
    by_cases hk : k = k'
    · subst hk
      have hg2 : v' = b := by simpa [jmGet] using hg
      subst hg2
      simp [jmSet, heapShape, hj, ho]
    · have hg2 : jmGet rest k = some b := by
        rw [jmGet, if_neg hk] at hg
        exact hg
      simp [jmSet, hk, heapShape] at ih ⊢
      exact ih hg2

theorem heapShape_get_jid (h1 h2 : List (Nat × Buddy)) (k : Nat)
    (hs : heapShape h1 = heapShape h2) :
    (jmGet h1 k).map (fun b => (b.jid, b.originalPresence))
      = (jmGet h2 k).map (fun b => (b.jid, b.originalPresence)) := by
  induction h1 generalizing h2 with
  | nil =>
    cases h2 with
    | nil => rfl
    | cons q r2 => simp [heapShape] at hs
  | cons p r1 ih =>
    cases h2 with
    | nil => simp [heapShape] at hs
    | cons q r2 =>
      obtain ⟨k1, b1⟩ := p
      obtain ⟨k2, b2⟩ := q
      simp only [heapShape, List.map_cons, List.cons.injEq, Prod.mk.injEq] at hs
      obtain ⟨⟨hk, hj, ho⟩, hrest⟩ := hs
      subst hk
      by_cases hkk : k = k1
      · simp [jmGet, hkk, hj, ho]
      · simp only [jmGet, if_neg hkk]
        exact ih r2 hrest

theorem extSpliceFold_char (arr : List Nat) (aId : Nat) (s0 s3 : HandlerState)
    (es0 es3 : List (String × EmittedCaps))
    (h : arr.foldlM (fun (acc : HandlerState × List (String × EmittedCaps)) bId =>
        match jmGet acc.1.buddyHeap bId with
        | none => none
        | some b =>
          let b' := { b with pendingExts := spliceIndexOf b.pendingExts aId }
          let s1 := { acc.1 with buddyHeap := jmSet acc.1.buddyHeap bId b' }
          match emitEventIfFullyLoaded s1 b.jid with
          | none => none
          | some (s2, es') => some (s2, acc.2 ++ es')) (s0, es0) = some (s3, es3)) :
    s3.cache = s0.cache ∧ s3.extCache = s0.extCache ∧ s3.pending = s0.pending ∧
    s3.pendingExt = s0.pendingExt ∧ s3.pendingBuddies = s0.pendingBuddies ∧
    s3.iqRequests = s0.iqRequests ∧ s3.iqCount = s0.iqCount ∧
    s3.waitArrs = s0.waitArrs ∧ s3.nextBuddyId = s0.nextBuddyId ∧
    s3.nextArrId = s0.nextArrId ∧
    heapShape s3.buddyHeap = heapShape s0.buddyHeap := by
  induction arr generalizing s0 es0 with
  | nil =>
    simp only [List.foldlM, Option.pure_def, Option.some.injEq] at h
    have h1 : s3 = s0 := (congrArg Prod.fst h).symm
    subst h1
    exact ⟨rfl, rfl, rfl, rfl, rfl, rfl, rfl, rfl, rfl, rfl, rfl⟩
  | cons bId rest ih =>
    simp only [List.foldlM] at h
    cases hb : jmGet s0.buddyHeap bId with
    | none => simp only [hb] at h; simp at h
    | some b =>
      simp only [hb] at h
      cases he : emitEventIfFullyLoaded { s0 with buddyHeap := jmSet s0.buddyHeap bId { b with pendingExts := spliceIndexOf b.pendingExts aId } } b.jid with
      | none =>
        simp only [he] at h
        simp at h
      | some p2 =>
        obtain ⟨s2, es2⟩ := p2
        simp only [he, Option.pure_def, Option.bind_eq_bind, Option.some_bind] at h
        have hs2 := emitEventIfFullyLoaded_state he
        subst hs2
        have hrec := ih _ _ h
        have hshape : heapShape (jmSet s0.buddyHeap bId { b with pendingExts := spliceIndexOf b.pendingExts aId }) = heapShape s0.buddyHeap :=
          heapShape_set s0.buddyHeap bId b _ hb rfl rfl
        exact ⟨hrec.1, hrec.2.1, hrec.2.2.1, hrec.2.2.2.1, hrec.2.2.2.2.1,
          hrec.2.2.2.2.2.1, hrec.2.2.2.2.2.2.1, hrec.2.2.2.2.2.2.2.1,
          hrec.2.2.2.2.2.2.2.2.1, hrec.2.2.2.2.2.2.2.2.2.1,
          hrec.2.2.2.2.2.2.2.2.2.2.trans hshape⟩

theorem handleIQExt_char (st st' : HandlerState) (r : IQStanza) (req : Request)
    (es : List (String × EmittedCaps)) (inner : List (String × Nat)) (e : String)
    (aId : Nat) (caps : Caps)
    (hpe : jmGet st.pendingExt req.fullNode = some inner)
    (hre : req.rext = some e)
    (hin : jmGet inner e = some aId)
    (hcaps : r.capabilities = some caps)
    (h : handleIQExt st r req = some (st', es)) :
    st'.cache = st.cache ∧
    st'.pending = st.pending ∧
    st'.pendingBuddies = st.pendingBuddies ∧
    st'.iqRequests = st.iqRequests ∧
    st'.iqCount = st.iqCount ∧
    st'.waitArrs = st.waitArrs ∧
    st'.nextBuddyId = st.nextBuddyId ∧
    st'.nextArrId = st.nextArrId ∧
    st'.pendingExt = jmSet st.pendingExt req.fullNode (jmDel inner e) ∧
    jmGet st'.extCache req.fullNode
      = some (jmSet ((jmGet st.extCache req.fullNode).getD []) e caps.rawFeatures) ∧
    (∀ G, G ≠ req.fullNode → jmGet st'.extCache G = jmGet st.extCache G) ∧
    heapShape st'.buddyHeap = heapShape st.buddyHeap := by
  unfold handleIQExt at h
  cases hec : jmGet st.extCache req.fullNode with
  | none =>
    simp only [hpe, hre, hin, hec, hcaps, jmGet_set_self] at h
    split at h
    · exact Option.noConfusion h
    · rename_i st3 emits hf
      split at h
      · exact Option.noConfusion h
      · rename_i inner3 hi3
        have hchar := extSpliceFold_char _ _ _ _ _ _ hf
        simp only at hchar
        rw [hchar.2.2.2.1, hpe, Option.some.injEq] at hi3
        subst hi3
        simp only [Option.some.injEq, Prod.mk.injEq] at h
        obtain ⟨h1, h2⟩ := h
        subst h1
        refine ⟨hchar.1, hchar.2.2.1, hchar.2.2.2.2.1, hchar.2.2.2.2.2.1,
          hchar.2.2.2.2.2.2.1, hchar.2.2.2.2.2.2.2.1, hchar.2.2.2.2.2.2.2.2.1,
          hchar.2.2.2.2.2.2.2.2.2.1, ?_, ?_, ?_, ?_⟩
        · rw [hchar.2.2.2.1]
        · rw [hchar.2.1]
          simp [jmGet_set_self]
        · intro G hG
          rw [hchar.2.1]
          rw [jmGet_set_ne _ _ _ _ hG, jmGet_set_ne _ _ _ _ hG]
        · exact hchar.2.2.2.2.2.2.2.2.2.2
  | some innerC =>
    simp only [hpe, hre, hin, hec, hcaps] at h
    split at h
    · exact Option.noConfusion h
    · rename_i st3 emits hf
      split at h
      · exact Option.noConfusion h
      · rename_i inner3 hi3
        have hchar := extSpliceFold_char _ _ _ _ _ _ hf
        simp only at hchar
        rw [hchar.2.2.2.1, hpe, Option.some.injEq] at hi3
        subst hi3
        simp only [Option.some.injEq, Prod.mk.injEq] at h
        obtain ⟨h1, h2⟩ := h
        subst h1
        refine ⟨hchar.1, hchar.2.2.1, hchar.2.2.2.2.1, hchar.2.2.2.2.2.1,
          hchar.2.2.2.2.2.2.1, hchar.2.2.2.2.2.2.2.1, hchar.2.2.2.2.2.2.2.2.1,
          hchar.2.2.2.2.2.2.2.2.2.1, ?_, ?_, ?_, ?_⟩
        · rw [hchar.2.2.2.1]
        · rw [hchar.2.1]
          simp [jmGet_set_self]
        · intro G hG
          rw [hchar.2.1]
          rw [jmGet_set_ne _ _ _ _ hG]
        · exact hchar.2.2.2.2.2.2.2.2.2.2

theorem jmSet_jmSet {κ α : Type} [DecidableEq κ] (m : List (κ × α)) (k : κ) (v w : α) :
    jmSet (jmSet m k v) k w = jmSet m k w := by
  induction m with
  | nil => simp [jmSet]
  | cons p rest ih =>
    obtain ⟨k', v'⟩ := p
    by_cases h : k = k' <;> simp [jmSet, h, ih]

theorem getCapabilitiesFromPresence_char (st st' : HandlerState) (stanza : Presence)
    (c : PresCaps) (qs : List SentQuery)
    (hc : stanza.caps = some c)
    (h : getCapabilitiesFromPresence st stanza = some (st', qs)) :
    (∃ pm, jmGet st.pending (c.node ++ "#" ++ c.ver) = some pm ∧ qs = [] ∧
      st' = { st with pending := jmSet st.pending (c.node ++ "#" ++ c.ver) { pm with buddies := pm.buddies ++ [stanza.fromJid] } }) ∨
    (jmGet st.pending (c.node ++ "#" ++ c.ver) = none ∧
      qs = [{ toJid := stanza.fromJid, id := "caps-" ++ toString (st.iqCount + 1),
              queryNode := c.node ++ "#" ++ c.ver }] ∧
      st' = { st with
        pending := jmSet st.pending (c.node ++ "#" ++ c.ver)
          { node := c.node, ver := c.ver, buddies := [stanza.fromJid] },
        iqCount := st.iqCount + 1,
        iqRequests := jmSet st.iqRequests ("caps-" ++ toString (st.iqCount + 1))
          { rtype := "caps", rext := none, node := c.node, ver := c.ver,
            fullNode := c.node ++ "#" ++ c.ver } }) := by
  unfold getCapabilitiesFromPresence at h
  cases hp : jmGet st.pending (c.node ++ "#" ++ c.ver) with
  | some pm =>
    left
    simp only [hc, hp, Option.some.injEq, Prod.mk.injEq] at h
    obtain ⟨h1, h2⟩ := h
    exact ⟨pm, rfl, h2.symm, h1.symm⟩
  | none =>
    right
    simp only [hc, hp, sendDiscoQuery, jmGet_set_self, Option.some.injEq,
      Prod.mk.injEq] at h
    obtain ⟨h1, h2⟩ := h
    refine ⟨rfl, h2.symm, ?_⟩
    rw [← h1]
    simp [jmSet_jmSet]

theorem getExtensionFromPresence_char (st st' : HandlerState) (stanza : Presence)
    (c : PresCaps) (e : String) (inner : List (String × Nat)) (qs : List SentQuery)
    (hc : stanza.caps = some c)
    (hpe : jmGet st.pendingExt (c.node ++ "#" ++ c.ver) = some inner)
    (h : getExtensionFromPresence st stanza e = some (st', qs)) :
    ∃ bId b, jmGet st.pendingBuddies stanza.fromJid = some bId ∧
      jmGet st.buddyHeap bId = some b ∧
      ((∃ aId, jmGet inner e = some aId ∧ qs = [] ∧
        st' = { st with
          waitArrs := jmSet st.waitArrs aId ((jmGet st.waitArrs aId).getD [] ++ [bId]),
          buddyHeap := jmSet st.buddyHeap bId { b with pendingExts := b.pendingExts ++ [aId] } }) ∨
      (jmGet inner e = none ∧
        qs = [{ toJid := stanza.fromJid, id := "caps-" ++ toString (st.iqCount + 1),
                queryNode := c.node ++ "#" ++ e }] ∧
        st' = { st with
          pendingExt := jmSet st.pendingExt (c.node ++ "#" ++ c.ver)
            (jmSet inner e st.nextArrId),
          waitArrs := jmSet st.waitArrs st.nextArrId [bId],
          iqCount := st.iqCount + 1,
          iqRequests := jmSet st.iqRequests ("caps-" ++ toString (st.iqCount + 1))
            { rtype := "ext", rext := some e, node := c.node, ver := c.ver,
              fullNode := c.node ++ "#" ++ c.ver },
          nextArrId := st.nextArrId + 1,
          buddyHeap := jmSet st.buddyHeap bId { b with pendingExts := b.pendingExts ++ [st.nextArrId] } })) := by
  unfold getExtensionFromPresence at h
  cases hin : jmGet inner e with
  | some aId0 =>
    simp only [hc, hpe, hin] at h
    cases hpb : jmGet st.pendingBuddies stanza.fromJid with
    | none => simp [hpb] at h
    | some bId =>
      cases hbh : jmGet st.buddyHeap bId with
      | none => simp [hpb, hbh] at h
      | some b =>
        simp only [hpb, hbh, Option.some.injEq, Prod.mk.injEq] at h
        obtain ⟨h1, h2⟩ := h
        exact ⟨bId, b, rfl, hbh, Or.inl ⟨aId0, rfl, h2.symm, h1.symm⟩⟩
  | none =>
    simp only [hc, hpe, hin, sendDiscoQuery, jmGet_set_self] at h
    cases hpb : jmGet st.pendingBuddies stanza.fromJid with
    | none => simp [hpb] at h
    | some bId =>
      cases hbh : jmGet st.buddyHeap bId with
      | none => simp [hpb, hbh] at h
      | some b =>
        simp only [hpb, hbh, jmGet_set_self, Option.some.injEq, Prod.mk.injEq,
          Option.getD_some] at h
        obtain ⟨h1, h2⟩ := h
        refine ⟨bId, b, rfl, hbh, Or.inr ⟨rfl, h2.symm, ?_⟩⟩
        rw [← h1]
        simp [jmSet_jmSet]

theorem inv_getCapabilitiesFromPresence (st st' : HandlerState) (stanza : Presence)
    (c : PresCaps) (qs : List SentQuery) (hc : stanza.caps = some c)
    (hinv : Inv st)
    (hreg : (jmGet st.pendingBuddies stanza.fromJid).isSome = true)
    (huncached : capsTruthy (jmGet st.cache (c.node ++ "#" ++ c.ver)) = false)
    (h : getCapabilitiesFromPresence st stanza = some (st', qs)) : Inv st' := by
  rcases getCapabilitiesFromPresence_char st st' stanza c qs hc h with
    ⟨pm, hp, hqs, hst⟩ | ⟨hp, hqs, hst⟩
  · subst hst
    refine ⟨hinv.iqNodup, jmSet_keys_nodup _ _ _ hinv.pendingNodup,
      hinv.pendingExtInnerNodup, hinv.mainUnique, hinv.extUnique, ?_,
      hinv.extPending, hinv.mainUncached, ?_, hinv.buddyWf⟩
    · intro id r hr hm
      exact jmGet_isSome_set _ _ _ _ (hinv.mainPending id r hr hm)
    · intro G pm2 hg jid hjid
      rw [jmGet_set] at hg
      by_cases hG : G = c.node ++ "#" ++ c.ver
      · rw [if_pos hG, Option.some.injEq] at hg
        subst hg
        simp only [List.mem_append, List.mem_singleton] at hjid
        rcases hjid with hjid | hjid
        · exact hinv.buddiesRegistered _ pm hp jid hjid
        · subst hjid
          exact hreg
      · rw [if_neg hG] at hg
        exact hinv.buddiesRegistered _ pm2 hg jid hjid
  · subst hst
    have hreqid : ∀ (a : String) (ra : Request),
        jmGet (jmSet st.iqRequests ("caps-" ++ toString (st.iqCount + 1))
          { rtype := "caps", rext := none, node := c.node, ver := c.ver,
            fullNode := c.node ++ "#" ++ c.ver }) a = some ra →
        (a = "caps-" ++ toString (st.iqCount + 1) ∧
         ra = { rtype := "caps", rext := none, node := c.node, ver := c.ver,
                fullNode := c.node ++ "#" ++ c.ver }) ∨
        (a ≠ "caps-" ++ toString (st.iqCount + 1) ∧ jmGet st.iqRequests a = some ra) := by
      intro a ra hg
      rw [jmGet_set] at hg
      by_cases ha : a = "caps-" ++ toString (st.iqCount + 1)
      · rw [if_pos ha, Option.some.injEq] at hg
        exact Or.inl ⟨ha, hg.symm⟩
      · rw [if_neg ha] at hg
        exact Or.inr ⟨ha, hg⟩
    refine ⟨jmSet_keys_nodup _ _ _ hinv.iqNodup,
      jmSet_keys_nodup _ _ _ hinv.pendingNodup,
      hinv.pendingExtInnerNodup, ?_, ?_, ?_, ?_, ?_, ?_, hinv.buddyWf⟩
    · -- mainUnique
      intro a b ra rb hga hgb hma hmb hfn
      rcases hreqid a ra hga with ⟨ha, hra⟩ | ⟨ha, hga'⟩ <;>
        rcases hreqid b rb hgb with ⟨hb, hrb⟩ | ⟨hb, hgb'⟩
      · exact ha.trans hb.symm
      · exfalso
        have := hinv.mainPending b rb hgb' hmb
        rw [← hfn, hra] at this
        simp only at this
        rw [hp] at this
        simp at this
      · exfalso
        have := hinv.mainPending a ra hga' hma
        rw [hfn, hrb] at this
        simp only at this
        rw [hp] at this
        simp at this
      · exact hinv.mainUnique a b ra rb hga' hgb' hma hmb hfn
    · -- extUnique
      intro a b ra rb hga hgb hea heb hfn hex
      rcases hreqid a ra hga with ⟨ha, hra⟩ | ⟨ha, hga'⟩
      · exfalso
        rw [hra] at hea
        simp at hea
      · rcases hreqid b rb hgb with ⟨hb, hrb⟩ | ⟨hb, hgb'⟩
        · exfalso
          rw [hrb] at heb
          simp at heb
        · exact hinv.extUnique a b ra rb hga' hgb' hea heb hfn hex
    · -- mainPending
      intro id r hg hm
      rcases hreqid id r hg with ⟨hid, hr⟩ | ⟨hid, hg'⟩
      · rw [hr]
        simp only
        rw [jmGet_set_self]
        rfl
      · exact jmGet_isSome_set _ _ _ _ (hinv.mainPending id r hg' hm)
    · -- extPending
      intro id r hg he
      rcases hreqid id r hg with ⟨hid, hr⟩ | ⟨hid, hg'⟩
      · exfalso
        rw [hr] at he
        simp at he
      · exact hinv.extPending id r hg' he
    · -- mainUncached
      intro id r hg hm
      rcases hreqid id r hg with ⟨hid, hr⟩ | ⟨hid, hg'⟩
      · rw [hr]
        exact huncached
      · exact hinv.mainUncached id r hg' hm
    · -- buddiesRegistered
      intro G pm2 hg jid hjid
      rw [jmGet_set] at hg
      by_cases hG : G = c.node ++ "#" ++ c.ver
      · rw [if_pos hG, Option.some.injEq] at hg
        subst hg
        simp only [List.mem_singleton] at hjid
        subst hjid
        exact hreg
      · rw [if_neg hG] at hg
        exact hinv.buddiesRegistered _ pm2 hg jid hjid

theorem inv_getExtensionFromPresence (st st' : HandlerState) (stanza : Presence)
    (c : PresCaps) (e : String) (inner : List (String × Nat)) (qs : List SentQuery)
    (hc : stanza.caps = some c)
    (hpe : jmGet st.pendingExt (c.node ++ "#" ++ c.ver) = some inner)
    (hinv : Inv st)
    (h : getExtensionFromPresence st stanza e = some (st', qs)) : Inv st' := by
  obtain ⟨bId, b, hpb, hbh, hcase⟩ :=
    getExtensionFromPresence_char st st' stanza c e inner qs hc hpe h
  have hbwf : ∀ (heap2 : List (Nat × Buddy)) (b' : Buddy),
      b'.originalPresence = b.originalPresence →
      heap2 = jmSet st.buddyHeap bId b' →
      ∀ jid2 bId2, jmGet st.pendingBuddies jid2 = some bId2 →
        ∃ b2, jmGet heap2 bId2 = some b2 ∧ b2.originalPresence.caps.isSome = true := by
    intro heap2 b' hbo hheap jid2 bId2 hg
    obtain ⟨b2, hb2, hb2c⟩ := hinv.buddyWf jid2 bId2 hg
    subst hheap
    rw [jmGet_set]
    by_cases hb : bId2 = bId
    · subst hb
      rw [hbh, Option.some.injEq] at hb2
      subst hb2
      exact ⟨b', by simp, by rw [hbo]; exact hb2c⟩
    · rw [if_neg hb]
      exact ⟨b2, hb2, hb2c⟩
  rcases hcase with ⟨aId, hin, hqs, hst⟩ | ⟨hin, hqs, hst⟩
  · subst hst
    exact ⟨hinv.iqNodup, hinv.pendingNodup, hinv.pendingExtInnerNodup,
      hinv.mainUnique, hinv.extUnique, hinv.mainPending, hinv.extPending,
      hinv.mainUncached, hinv.buddiesRegistered,
      hbwf _ { b with pendingExts := b.pendingExts ++ [aId] } rfl rfl⟩
  · subst hst
    have hreqid : ∀ (a : String) (ra : Request),
        jmGet (jmSet st.iqRequests ("caps-" ++ toString (st.iqCount + 1))
          { rtype := "ext", rext := some e, node := c.node, ver := c.ver,
            fullNode := c.node ++ "#" ++ c.ver }) a = some ra →
        (a = "caps-" ++ toString (st.iqCount + 1) ∧
         ra = { rtype := "ext", rext := some e, node := c.node, ver := c.ver,
                fullNode := c.node ++ "#" ++ c.ver }) ∨
        (a ≠ "caps-" ++ toString (st.iqCount + 1) ∧ jmGet st.iqRequests a = some ra) := by
      intro a ra hg
      rw [jmGet_set] at hg
      by_cases ha : a = "caps-" ++ toString (st.iqCount + 1)
      · rw [if_pos ha, Option.some.injEq] at hg
        exact Or.inl ⟨ha, hg.symm⟩
      · rw [if_neg ha] at hg
        exact Or.inr ⟨ha, hg⟩
    refine ⟨jmSet_keys_nodup _ _ _ hinv.iqNodup, hinv.pendingNodup, ?_,
      ?_, ?_, ?_, ?_, ?_, hinv.buddiesRegistered,
      hbwf _ { b with pendingExts := b.pendingExts ++ [st.nextArrId] } rfl rfl⟩
    · -- pendingExtInnerNodup
      intro G innerG hg
      rw [jmGet_set] at hg
      by_cases hG : G = c.node ++ "#" ++ c.ver
      · rw [if_pos hG, Option.some.injEq] at hg
        subst hg
        exact jmSet_keys_nodup _ _ _ (hinv.pendingExtInnerNodup _ inner hpe)
      · rw [if_neg hG] at hg
        exact hinv.pendingExtInnerNodup _ innerG hg
    · -- mainUnique
      intro a b2 ra rb hga hgb hma hmb hfn
      rcases hreqid a ra hga with ⟨ha, hra⟩ | ⟨ha, hga'⟩
      · exfalso
        rw [hra] at hma
        simp at hma
      · rcases hreqid b2 rb hgb with ⟨hb, hrb⟩ | ⟨hb, hgb'⟩
        · exfalso
          rw [hrb] at hmb
          simp at hmb
        · exact hinv.mainUnique a b2 ra rb hga' hgb' hma hmb hfn
    · -- extUnique
      intro a b2 ra rb hga hgb hea heb hfn hex
      rcases hreqid a ra hga with ⟨ha, hra⟩ | ⟨ha, hga'⟩ <;>
        rcases hreqid b2 rb hgb with ⟨hb, hrb⟩ | ⟨hb, hgb'⟩
      · exact ha.trans hb.symm
      · exfalso
        obtain ⟨e2, inner2, aId2, hre2, hpe2, hin2⟩ := hinv.extPending b2 rb hgb' heb
        rw [← hfn, hra] at hpe2
        simp only at hpe2
        rw [hpe, Option.some.injEq] at hpe2
        subst hpe2
        rw [← hex, hra] at hre2
        simp only [Option.some.injEq] at hre2
        subst hre2
        rw [hin] at hin2
        exact Option.noConfusion hin2
      · exfalso
        obtain ⟨e2, inner2, aId2, hre2, hpe2, hin2⟩ := hinv.extPending a ra hga' hea
        rw [hfn, hrb] at hpe2
        simp only at hpe2
        rw [hpe, Option.some.injEq] at hpe2
        subst hpe2
        rw [hex, hrb] at hre2
        simp only [Option.some.injEq] at hre2
        subst hre2
        rw [hin] at hin2
        exact Option.noConfusion hin2
      · exact hinv.extUnique a b2 ra rb hga' hgb' hea heb hfn hex
    · -- mainPending
      intro id r hg hm
      rcases hreqid id r hg with ⟨hid, hr⟩ | ⟨hid, hg'⟩
      · exfalso
        rw [hr] at hm
        simp at hm
      · exact hinv.mainPending id r hg' hm
    · -- extPending
      intro id r hg he
      rcases hreqid id r hg with ⟨hid, hr⟩ | ⟨hid, hg'⟩
      · refine ⟨e, jmSet inner e st.nextArrId, st.nextArrId, ?_, ?_, ?_⟩
        · rw [hr]
        · rw [hr]
          simp only
          rw [jmGet_set_self]
        · rw [jmGet_set_self]
      · obtain ⟨e2, inner2, aId2, hre2, hpe2, hin2⟩ := hinv.extPending id r hg' he
        by_cases hG : r.fullNode = c.node ++ "#" ++ c.ver
        · rw [hG, hpe] at hpe2
          injection hpe2 with hpe2
          subst hpe2
          by_cases he2 : e2 = e
          · subst he2
            refine ⟨e2, jmSet inner e2 st.nextArrId, st.nextArrId, hre2, ?_, ?_⟩
            · rw [hG]
              simp only
              rw [jmGet_set_self]
            · rw [jmGet_set_self]
          · refine ⟨e2, jmSet inner e st.nextArrId, aId2, hre2, ?_, ?_⟩
            · rw [hG]
              simp only
              rw [jmGet_set_self]
            · rw [jmGet_set_ne _ _ _ _ he2]
              exact hin2
        · refine ⟨e2, inner2, aId2, hre2, ?_, hin2⟩
          simp only
          rw [jmGet_set_ne _ _ _ _ hG]
          exact hpe2
    · -- mainUncached
      intro id r hg hm
      rcases hreqid id r hg with ⟨hid, hr⟩ | ⟨hid, hg'⟩
      · exfalso
        rw [hr] at hm
        simp at hm
      · exact hinv.mainUncached id r hg' hm

theorem inv_registerBuddy (st : HandlerState) (stanza : Presence) (c : PresCaps)
    (hc : stanza.caps = some c) (hinv : Inv st) :
    Inv { st with
      nextBuddyId := st.nextBuddyId + 1,
      buddyHeap := jmSet st.buddyHeap st.nextBuddyId
        { jid := stanza.fromJid, pendingExts := [], originalPresence := stanza },
      pendingBuddies := jmSet st.pendingBuddies stanza.fromJid st.nextBuddyId } := by
  refine ⟨hinv.iqNodup, hinv.pendingNodup, hinv.pendingExtInnerNodup,
    hinv.mainUnique, hinv.extUnique, hinv.mainPending, hinv.extPending,
    hinv.mainUncached, ?_, ?_⟩
  · intro F pm hp jid hjid
    exact jmGet_isSome_set _ _ _ _ (hinv.buddiesRegistered F pm hp jid hjid)
  · intro jid bId hg
    simp only [jmGet_set] at hg ⊢
    by_cases hj : jid = stanza.fromJid
    · rw [if_pos hj, Option.some.injEq] at hg
      subst hg
      refine ⟨{ jid := stanza.fromJid, pendingExts := [], originalPresence := stanza },
        by simp, by simp [hc]⟩
    · rw [if_neg hj] at hg
      obtain ⟨b2, hb2, hb2c⟩ := hinv.buddyWf jid bId hg
      by_cases hb : bId = st.nextBuddyId
      · subst hb
        refine ⟨{ jid := stanza.fromJid, pendingExts := [], originalPresence := stanza },
          by simp, by simp [hc]⟩
      · rw [if_neg hb]
        exact ⟨b2, hb2, hb2c⟩

theorem inv_pendingExtInit (s : HandlerState) (F : String) (hinv : Inv s)
    (hpe : jmGet s.pendingExt F = none) :
    Inv { s with pendingExt := jmSet s.pendingExt F [] } := by
  refine ⟨hinv.iqNodup, hinv.pendingNodup, ?_, hinv.mainUnique, hinv.extUnique,
    hinv.mainPending, ?_, hinv.mainUncached, hinv.buddiesRegistered, hinv.buddyWf⟩
  · intro G innerG hg
    simp only [jmGet_set] at hg
    by_cases hG : G = F
    · rw [if_pos hG, Option.some.injEq] at hg
      subst hg
      simp
    · rw [if_neg hG] at hg
      exact hinv.pendingExtInnerNodup G innerG hg
  · intro id r hg he
    obtain ⟨e2, inner2, aId2, hre2, hpe2, hin2⟩ := hinv.extPending id r hg he
    by_cases hG : r.fullNode = F
    · rw [hG, hpe] at hpe2
      exact Option.noConfusion hpe2
    · refine ⟨e2, inner2, aId2, hre2, ?_, hin2⟩
      simp only
      rw [jmGet_set_ne _ _ _ _ hG]
      exact hpe2

theorem getExtensionFromPresence_pendingExt_isSome (st st' : HandlerState)
    (stanza : Presence) (c : PresCaps) (e : String) (inner : List (String × Nat))
    (qs : List SentQuery) (hc : stanza.caps = some c)
    (hpe : jmGet st.pendingExt (c.node ++ "#" ++ c.ver) = some inner)
    (h : getExtensionFromPresence st stanza e = some (st', qs)) :
    (jmGet st'.pendingExt (c.node ++ "#" ++ c.ver)).isSome = true := by
  obtain ⟨bId, b, hpb, hbh, hcase⟩ :=
    getExtensionFromPresence_char st st' stanza c e inner qs hc hpe h
  rcases hcase with ⟨aId, hin, hqs, hst⟩ | ⟨hin, hqs, hst⟩
  · subst hst
    simp only
    rw [hpe]
    rfl
  · subst hst
    simp only
    rw [jmGet_set_self]
    rfl

theorem inv_extFold (exts : List String) (stanza : Presence) (c : PresCaps)
    (s s' : HandlerState) (qs0 qs' : List SentQuery)
    (hc : stanza.caps = some c) (hinv : Inv s)
    (hpeS : (jmGet s.pendingExt (c.node ++ "#" ++ c.ver)).isSome = true)
    (h : exts.foldlM (fun (acc : HandlerState × List SentQuery) e =>
        match getExtensionFromPresence acc.1 stanza e with
        | none => none
        | some (s2, qs2) => some (s2, acc.2 ++ qs2)) (s, qs0) = some (s', qs')) :
    Inv s' := by
  induction exts generalizing s qs0 with
  | nil =>
    simp only [List.foldlM, Option.pure_def, Option.some.injEq] at h
    have h1 : s' = s := (congrArg Prod.fst h).symm
    subst h1
    exact hinv
  | cons e rest ih =>
    simp only [List.foldlM] at h
    cases hg : getExtensionFromPresence s stanza e with
    | none => simp only [hg] at h; simp at h
    | some p2 =>
      obtain ⟨s2, qs2⟩ := p2
      simp only [hg, Option.pure_def, Option.bind_eq_bind, Option.some_bind] at h
      obtain ⟨inner, hinner⟩ := Option.isSome_iff_exists.mp hpeS
      have hinv2 := inv_getExtensionFromPresence s s2 stanza c e inner qs2 hc hinner hinv hg
      have hpe2 := getExtensionFromPresence_pendingExt_isSome s s2 stanza c e inner qs2 hc hinner hg
      exact ih s2 _ hinv2 hpe2 h

theorem inv_handlePresence (st st' : HandlerState) (stanza : Presence)
    (eff : Effects) (hinv : Inv st)
    (h : handlePresence st stanza = some (st', eff)) : Inv st' := by
  unfold handlePresence at h
  cases hpc : stanza.caps with
  | none =>
    simp only [hpc, Option.some.injEq, Prod.mk.injEq] at h
    rw [← h.1]
    exact hinv
  | some c =>
    simp only [hpc] at h
    split at h
    · -- fast path: emit only
      split at h
      · exact Option.noConfusion h
      · rename_i stE ev hemit
        simp only [Option.some.injEq, Prod.mk.injEq] at h
        rw [← h.1, emitCapabilitiesEvent_state hemit]
        exact hinv
    · -- slow path
      have hinv1 := inv_registerBuddy st stanza c hpc hinv
      split at h
      · exact Option.noConfusion h
      · rename_i st2 qs1 hmain
        have hinv2 : Inv st2 := by
          split at hmain
          · simp only [Option.some.injEq, Prod.mk.injEq] at hmain
            rw [← hmain.1]
            exact hinv1
          · rename_i hcA
            refine inv_getCapabilitiesFromPresence _ st2 stanza c qs1 hpc hinv1 ?_ ?_ hmain
            · simp only [jmGet_set_self]
              rfl
            · simpa using hcA
        split at h
        · simp only [Option.some.injEq, Prod.mk.injEq] at h
          rw [← h.1]
          exact hinv2
        · cases hpe2 : jmGet st2.pendingExt (c.node ++ "#" ++ c.ver) with
          | none =>
            simp only [hpe2] at h
            split at h
            · exact Option.noConfusion h
            · rename_i st4 qs2 hfold
              simp only [Option.some.injEq, Prod.mk.injEq] at h
              rw [← h.1]
              refine inv_extFold _ stanza c _ st4 [] qs2 hpc
                (inv_pendingExtInit st2 _ hinv2 hpe2) ?_ hfold
              simp only [jmGet_set_self]
              rfl
          | some innerX =>
            simp only [hpe2] at h
            split at h
            · exact Option.noConfusion h
            · rename_i st4 qs2 hfold
              simp only [Option.some.injEq, Prod.mk.injEq] at h
              rw [← h.1]
              refine inv_extFold _ stanza c st2 st4 [] qs2 hpc hinv2 ?_ hfold
              rw [hpe2]
              rfl

theorem handleIQExt_nocaps (st : HandlerState) (r : IQStanza) (req : Request)
    (hc : r.capabilities = none) : handleIQExt st r req = none := by
  unfold handleIQExt
  simp only [hc]
  cases jmGet st.pendingExt req.fullNode with
  | none => rfl
  | some inner =>
    cases req.rext with
    | none => rfl
    | some e =>
      cases h2 : jmGet inner e with
      | none => simp [h2]
      | some aId => simp [h2]

theorem buddyWf_transfer (heap1 heap2 : List (Nat × Buddy)) (bId : Nat)
    (hs : heapShape heap1 = heapShape heap2) (b2 : Buddy)
    (hb : jmGet heap2 bId = some b2)
    (hc : b2.originalPresence.caps.isSome = true) :
    ∃ b1, jmGet heap1 bId = some b1 ∧ b1.originalPresence.caps.isSome = true := by
  have hmap := heapShape_get_jid heap1 heap2 bId hs
  rw [hb] at hmap
  cases hg : jmGet heap1 bId with
  | none => rw [hg] at hmap; exact Option.noConfusion hmap
  | some b1 =>
    rw [hg] at hmap
    simp only [Option.map_some', Option.some.injEq, Prod.mk.injEq] at hmap
    exact ⟨b1, rfl, hmap.2 ▸ hc⟩

theorem inv_handleIQ (st st' : HandlerState) (r : IQStanza) (eff : Effects)
    (hinv : Inv st) (h : handleIQ st r = some (st', eff)) : Inv st' := by
  unfold handleIQ at h
  cases hreq : jmGet st.iqRequests r.id with
  | none =>
    simp only [hreq, Option.some.injEq, Prod.mk.injEq] at h
    rw [← h.1]
    exact hinv
  | some req =>
    simp only [hreq] at h
    by_cases hty : req.rtype = "ext"
    · -- extension response
      rw [if_pos hty] at h
      cases hx : handleIQExt st r req with
      | none => rw [hx] at h; exact Option.noConfusion h
      | some p1 =>
        obtain ⟨st1, emits⟩ := p1
        rw [hx] at h
        simp only [Option.some.injEq, Prod.mk.injEq] at h
        obtain ⟨e, inner, aId, hre, hpe, hin⟩ := hinv.extPending r.id req hreq hty
        cases hcap : r.capabilities with
        | none => rw [handleIQExt_nocaps st r req hcap] at hx; exact Option.noConfusion hx
        | some caps =>
        have hchar := handleIQExt_char st st1 r req emits inner e aId caps hpe hre hin hcap hx
        rw [← h.1]
        have hdel : ∀ (a : String) (ra : Request),
            jmGet (jmDel st1.iqRequests r.id) a = some ra →
            a ≠ r.id ∧ jmGet st.iqRequests a = some ra := by
          intro a ra hg
          rw [hchar.2.2.2.1] at hg
          rw [jmGet_del _ _ _ hinv.iqNodup] at hg
          by_cases ha : a = r.id
          · rw [if_pos ha] at hg
            exact Option.noConfusion hg
          · rw [if_neg ha] at hg
            exact ⟨ha, hg⟩
        refine ⟨?_, ?_, ?_, ?_, ?_, ?_, ?_, ?_, ?_, ?_⟩
        · simp only
          rw [hchar.2.2.2.1]
          exact jmDel_keys_nodup _ _ hinv.iqNodup
        · simp only
          rw [hchar.2.1]
          exact hinv.pendingNodup
        · intro G innerG hg
          simp only at hg
          rw [hchar.2.2.2.2.2.2.2.2.1] at hg
          rw [jmGet_set] at hg
          by_cases hG : G = req.fullNode
          · rw [if_pos hG, Option.some.injEq] at hg
            subst hg
            exact jmDel_keys_nodup _ _ (hinv.pendingExtInnerNodup _ inner hpe)
          · rw [if_neg hG] at hg
            exact hinv.pendingExtInnerNodup _ innerG hg
        · intro a b ra rb hga hgb hma hmb hfn
          obtain ⟨ha, hga'⟩ := hdel a ra hga
          obtain ⟨hb, hgb'⟩ := hdel b rb hgb
          exact hinv.mainUnique a b ra rb hga' hgb' hma hmb hfn
        · intro a b ra rb hga hgb hea heb hfn hex
          obtain ⟨ha, hga'⟩ := hdel a ra hga
          obtain ⟨hb, hgb'⟩ := hdel b rb hgb
          exact hinv.extUnique a b ra rb hga' hgb' hea heb hfn hex
        · intro id2 r2 hg hm
          obtain ⟨hid, hg'⟩ := hdel id2 r2 hg
          simp only
          rw [hchar.2.1]
          exact hinv.mainPending id2 r2 hg' hm
        · intro id2 r2 hg he
          obtain ⟨hid, hg'⟩ := hdel id2 r2 hg
          obtain ⟨e2, inner2, aId2, hre2, hpe2, hin2⟩ := hinv.extPending id2 r2 hg' he
          simp only
          rw [hchar.2.2.2.2.2.2.2.2.1]
          by_cases hG : r2.fullNode = req.fullNode
          · rw [hG] at hpe2
            rw [hpe, Option.some.injEq] at hpe2
            subst hpe2
            by_cases he2 : e2 = e
            · exfalso
              subst he2
              have := hinv.extUnique id2 r.id r2 req hg' hreq he hty hG
                (by rw [hre2, hre])
              exact hid this
            · refine ⟨e2, jmDel inner e, aId2, hre2, ?_, ?_⟩
              · rw [hG, jmGet_set_self]
              · rw [jmGet_del_ne _ _ _ he2]
                exact hin2
          · refine ⟨e2, inner2, aId2, hre2, ?_, hin2⟩
            rw [jmGet_set_ne _ _ _ _ hG]
            exact hpe2
        · intro id2 r2 hg hm
          obtain ⟨hid, hg'⟩ := hdel id2 r2 hg
          simp only
          rw [hchar.1]
          exact hinv.mainUncached id2 r2 hg' hm
        · intro G pm hg jid hjid
          simp only at hg ⊢
          rw [hchar.2.1] at hg
          rw [hchar.2.2.1]
          exact hinv.buddiesRegistered G pm hg jid hjid
        · intro jid bId hg
          simp only at hg ⊢
          rw [hchar.2.2.1] at hg
          obtain ⟨b2, hb2, hb2c⟩ := hinv.buddyWf jid bId hg
          exact buddyWf_transfer st1.buddyHeap st.buddyHeap bId
            hchar.2.2.2.2.2.2.2.2.2.2.2 b2 hb2 hb2c
    · -- main response
      rw [if_neg hty] at h
      cases hx : handleIQCaps st r req with
      | none => rw [hx] at h; exact Option.noConfusion h
      | some p1 =>
        obtain ⟨st1, emits⟩ := p1
        rw [hx] at h
        simp only [Option.some.injEq, Prod.mk.injEq] at h
        have hchar := handleIQCaps_char st st1 r req emits hx
        rw [← h.1]
        have hdel : ∀ (a : String) (ra : Request),
            jmGet (jmDel st1.iqRequests r.id) a = some ra →
            a ≠ r.id ∧ jmGet st.iqRequests a = some ra := by
          intro a ra hg
          rw [hchar.2.2.2.2.2.2.1] at hg
          rw [jmGet_del _ _ _ hinv.iqNodup] at hg
          by_cases ha : a = r.id
          · rw [if_pos ha] at hg
            exact Option.noConfusion hg
          · rw [if_neg ha] at hg
            exact ⟨ha, hg⟩
        have hpall : ∀ G, G ≠ req.fullNode → jmGet st1.pending G = jmGet st.pending G := by
          intro G hG
          rcases hchar.2.2.2.2.2.2.2.2.2.2 with ⟨hnone, hsame⟩ | ⟨pm, hsome, hdel2⟩
          · rw [hsame]
          · rw [hdel2, jmGet_del_ne _ _ _ hG]
        refine ⟨?_, ?_, ?_, ?_, ?_, ?_, ?_, ?_, ?_, ?_⟩
        · simp only
          rw [hchar.2.2.2.2.2.2.1]
          exact jmDel_keys_nodup _ _ hinv.iqNodup
        · simp only
          rcases hchar.2.2.2.2.2.2.2.2.2.2 with ⟨hnone, hsame⟩ | ⟨pm, hsome, hdel2⟩
          · rw [hsame]; exact hinv.pendingNodup
          · rw [hdel2]; exact jmDel_keys_nodup _ _ hinv.pendingNodup
        · intro G innerG hg
          simp only at hg
          rw [hchar.2.2.1] at hg
          exact hinv.pendingExtInnerNodup G innerG hg
        · intro a b ra rb hga hgb hma hmb hfn
          obtain ⟨ha, hga'⟩ := hdel a ra hga
          obtain ⟨hb, hgb'⟩ := hdel b rb hgb
          exact hinv.mainUnique a b ra rb hga' hgb' hma hmb hfn
        · intro a b ra rb hga hgb hea heb hfn hex
          obtain ⟨ha, hga'⟩ := hdel a ra hga
          obtain ⟨hb, hgb'⟩ := hdel b rb hgb
          exact hinv.extUnique a b ra rb hga' hgb' hea heb hfn hex
        · intro id2 r2 hg hm
          obtain ⟨hid, hg'⟩ := hdel id2 r2 hg
          have hG : r2.fullNode ≠ req.fullNode := by
            intro hfn
            exact hid (hinv.mainUnique id2 r.id r2 req hg' hreq hm hty hfn)
          simp only
          rw [hpall _ hG]
          exact hinv.mainPending id2 r2 hg' hm
        · intro id2 r2 hg he
          obtain ⟨hid, hg'⟩ := hdel id2 r2 hg
          obtain ⟨e2, inner2, aId2, hre2, hpe2, hin2⟩ := hinv.extPending id2 r2 hg' he
          refine ⟨e2, inner2, aId2, hre2, ?_, hin2⟩
          simp only
          rw [hchar.2.2.1]
          exact hpe2
        · intro id2 r2 hg hm
          obtain ⟨hid, hg'⟩ := hdel id2 r2 hg
          have hG : r2.fullNode ≠ req.fullNode := by
            intro hfn
            exact hid (hinv.mainUnique id2 r.id r2 req hg' hreq hm hty hfn)
          simp only
          rw [hchar.1, jmGet_set_ne _ _ _ _ hG]
          exact hinv.mainUncached id2 r2 hg' hm
        · intro G pm hg jid hjid
          simp only at hg ⊢
          rw [hchar.2.2.2.1]
          rcases hchar.2.2.2.2.2.2.2.2.2.2 with ⟨hnone, hsame⟩ | ⟨pm2, hsome, hdel2⟩
          · rw [hsame] at hg
            exact hinv.buddiesRegistered G pm hg jid hjid
          · rw [hdel2] at hg
            by_cases hG : G = req.fullNode
            · rw [hG, jmGet_del_self _ _ hinv.pendingNodup] at hg
              exact Option.noConfusion hg
            · rw [jmGet_del_ne _ _ _ hG] at hg
              exact hinv.buddiesRegistered G pm hg jid hjid
        · intro jid bId hg
          simp only at hg ⊢
          rw [hchar.2.2.2.1] at hg
          rw [hchar.2.2.2.2.1]
          exact hinv.buddyWf jid bId hg

theorem inv_init : Inv initState := by
  refine ⟨?_, ?_, ?_, ?_, ?_, ?_, ?_, ?_, ?_, ?_⟩ <;> intros <;>
    simp_all [initState, jmGet]

theorem inv_step (st st' : HandlerState) (e : Ev) (eff : Effects) (hinv : Inv st)
    (h : step st e = some (st', eff)) : Inv st' := by
  cases e with
  | pres p => exact inv_handlePresence st st' p eff hinv h
  | iq s => exact inv_handleIQ st st' s eff hinv h

theorem runSt_inv (evs : List Ev) (s st : HandlerState) (hinv : Inv s)
    (h : runSt s evs = some st) : Inv st := by
  induction evs generalizing s with
  | nil =>
    simp only [runSt, Option.some.injEq] at h
    exact h ▸ hinv
  | cons e rest ih =>
    simp only [runSt] at h
    cases hs : step s e with
    | none => rw [hs] at h; exact Option.noConfusion h
    | some p =>
      obtain ⟨s1, eff⟩ := p
      rw [hs] at h
      exact ih s1 (inv_step s s1 e eff hinv hs) h

theorem reachable_inv (st : HandlerState) (h : Reachable st) : Inv st := by
  obtain ⟨evs, hrun⟩ := h
  exact runSt_inv evs initState st inv_init hrun

/-! ### C2: request coalescing -/

/-- C2: in every reachable handler state, at most one discovery request is
outstanding per fingerprint and per (fingerprint, extension) pair (any two
tracked requests with the same target coincide); an announcement of a
fingerprint that already has a pending entry sends no query at all and merely
appends the announcer to the waiter list; and the single response clears the
whole waiter set at once. -/
theorem c2_single_outstanding_query_per_fingerprint (st : HandlerState)
    (h : Reachable st) :
    (∀ a b ra rb, jmGet st.iqRequests a = some ra →
      jmGet st.iqRequests b = some rb → ra.rtype ≠ "ext" → rb.rtype ≠ "ext" →
      ra.fullNode = rb.fullNode → a = b) ∧
    (∀ a b ra rb, jmGet st.iqRequests a = some ra →
      jmGet st.iqRequests b = some rb → ra.rtype = "ext" → rb.rtype = "ext" →
      ra.fullNode = rb.fullNode → ra.rext = rb.rext → a = b) ∧
    (∀ stanza c pm, stanza.caps = some c → c.ext = none →
      jmGet st.pending (c.node ++ "#" ++ c.ver) = some pm →
      capsTruthy (jmGet st.cache (c.node ++ "#" ++ c.ver)) = false →
      ∃ st2, handlePresence st stanza = some (st2, { queries := [], emits := [] }) ∧
        jmGet st2.pending (c.node ++ "#" ++ c.ver)
          = some { pm with buddies := pm.buddies ++ [stanza.fromJid] }) ∧
    (∀ r req st2 eff, jmGet st.iqRequests r.id = some req → req.rtype ≠ "ext" →
      handleIQ st r = some (st2, eff) → jmGet st2.pending req.fullNode = none) := by
  have hinv := reachable_inv st h
  refine ⟨hinv.mainUnique, hinv.extUnique, ?_, ?_⟩
  · intro stanza c pm hc hxe hp hcache
    simp only [handlePresence, hc, hxe, List.isEmpty_nil, Bool.and_true, hcache,
      Bool.false_eq_true, if_false, getCapabilitiesFromPresence, hp]
    refine ⟨_, rfl, ?_⟩
    rw [jmGet_set_self]
  · intro r req st2 eff hreq hty hiq
    simp only [handleIQ, hreq, if_neg hty] at hiq
    cases hx : handleIQCaps st r req with
    | none => rw [hx] at hiq; exact Option.noConfusion hiq
    | some p1 =>
      obtain ⟨st1, emits⟩ := p1
      rw [hx] at hiq
      simp only [Option.some.injEq, Prod.mk.injEq] at hiq
      have hchar := handleIQCaps_char st st1 r req emits hx
      rw [← hiq.1]
      simp only
      rcases hchar.2.2.2.2.2.2.2.2.2.2 with ⟨hnone, hsame⟩ | ⟨pm, hsome, hdel⟩
      · rw [hsame]
        exact hnone
      · rw [hdel]
        exact jmGet_del_self _ _ hinv.pendingNodup

/-- Witness for C2 at a concrete reachable state (one pending request for
`app#v1` with two registered waiters; the only tracked query is `caps-1`,
so the uniqueness clause instantiated at that state forces equality). -/
theorem c2_single_outstanding_query_per_fingerprint_witness :
    jmGet ((runSt initState
        [Ev.pres ⟨"romeo@x", some ⟨"app", "v1", none, none⟩⟩,
         Ev.pres ⟨"juliet@x", some ⟨"app", "v1", none, none⟩⟩]).getD initState).iqRequests
        "caps-1" = some ⟨"caps", none, "app", "v1", "app#v1"⟩ ∧
    ("caps-1" : String) = "caps-1" :=
  ⟨rfl,
   (c2_single_outstanding_query_per_fingerprint _
    ⟨[Ev.pres ⟨"romeo@x", some ⟨"app", "v1", none, none⟩⟩,
      Ev.pres ⟨"juliet@x", some ⟨"app", "v1", none, none⟩⟩], rfl⟩).1
    "caps-1" "caps-1" ⟨"caps", none, "app", "v1", "app#v1"⟩
    ⟨"caps", none, "app", "v1", "app#v1"⟩ rfl rfl (by decide) (by decide) rfl⟩

/-- C4 (amended): a truthily cached entry of the handler's capability cache
is never altered by handling any further IQ response: untracked ids are
ignored, extension responses write only the extension cache, and no main
request can be outstanding for an already-cached fingerprint. -/
theorem c4_amended_cached_entry_stable (st : HandlerState) (h : Reachable st)
    (F : String) (c : Caps) (hc : jmGet st.cache F = some (some c))
    (r : IQStanza) (st' : HandlerState) (eff : Effects)
    (hr : handleIQ st r = some (st', eff)) :
    jmGet st'.cache F = some (some c) := by
  have hinv := reachable_inv st h
  cases hreq : jmGet st.iqRequests r.id with
  | none =>
    simp only [handleIQ, hreq, Option.some.injEq, Prod.mk.injEq] at hr
    rw [← hr.1]
    exact hc
  | some req =>
    by_cases hty : req.rtype = "ext"
    · simp only [handleIQ, hreq, if_pos hty] at hr
      cases hx : handleIQExt st r req with
      | none => rw [hx] at hr; exact Option.noConfusion hr
      | some p1 =>
        obtain ⟨st1, emits⟩ := p1
        rw [hx] at hr
        simp only [Option.some.injEq, Prod.mk.injEq] at hr
        obtain ⟨e, inner, aId, hre, hpe, hin⟩ := hinv.extPending r.id req hreq hty
        cases hcap : r.capabilities with
        | none =>
          rw [handleIQExt_nocaps st r req hcap] at hx
          exact Option.noConfusion hx
        | some caps =>
          have hchar := handleIQExt_char st st1 r req emits inner e aId caps hpe hre hin hcap hx
          rw [← hr.1]
          simp only
          rw [hchar.1]
          exact hc
    · simp only [handleIQ, hreq, if_neg hty] at hr
      cases hx : handleIQCaps st r req with
      | none => rw [hx] at hr; exact Option.noConfusion hr
      | some p1 =>
        obtain ⟨st1, emits⟩ := p1
        rw [hx] at hr
        simp only [Option.some.injEq, Prod.mk.injEq] at hr
        have hchar := handleIQCaps_char st st1 r req emits hx
        have hF : F ≠ req.fullNode := by
          intro hfn
          have := hinv.mainUncached r.id req hreq hty
          rw [← hfn, hc] at this
          simp [capsTruthy] at this
        rw [← hr.1]
        simp only
        rw [hchar.1, jmGet_set_ne _ _ _ _ hF]
        exact hc

/-- Witness for C4 (amended) at a concrete reachable state: `app#v1` is
cached by a handled response, and a duplicate of that response (its id is no
longer tracked) leaves the entry unchanged. -/
theorem c4_amended_cached_entry_stable_witness :
    jmGet ((runSt initState
      [Ev.pres ⟨"romeo@x", some ⟨"app", "v1", none, none⟩⟩,
       Ev.iq ⟨"caps-1", some ⟨some "app#v1", ["jabber:iq:version"], [], none⟩⟩]).getD
        initState).cache "app#v1"
      = some (some ⟨some "app#v1", ["jabber:iq:version"], [], none⟩) :=
  c4_amended_cached_entry_stable _
    ⟨[Ev.pres ⟨"romeo@x", some ⟨"app", "v1", none, none⟩⟩,
      Ev.iq ⟨"caps-1", some ⟨some "app#v1", ["jabber:iq:version"], [], none⟩⟩], rfl⟩
    "app#v1" _ (by rfl) ⟨"caps-1", none⟩ _ _ (by rfl)

theorem emitEventIfFullyLoaded_falsy (s : HandlerState) (jid : String)
    (bId : Nat) (b : Buddy) (pc : PresCaps)
    (hpb : jmGet s.pendingBuddies jid = some bId)
    (hbh : jmGet s.buddyHeap bId = some b)
    (hpc : b.originalPresence.caps = some pc)
    (hfalse : capsTruthy (jmGet s.cache (pc.node ++ "#" ++ pc.ver)) = false) :
    emitEventIfFullyLoaded s jid = some (s, []) := by
  unfold emitEventIfFullyLoaded
  simp only [hpb, hbh, hpc, hfalse, Bool.false_and, Bool.false_eq_true, if_false]

theorem emitFold_allFalsy (l : List String) (s : HandlerState)
    (es0 : List (String × EmittedCaps))
    (hall : ∀ jid ∈ l, emitEventIfFullyLoaded s jid = some (s, [])) :
    l.foldlM (fun (acc : HandlerState × List (String × EmittedCaps)) jid =>
        match emitEventIfFullyLoaded acc.1 jid with
        | none => none
        | some (s2, es2) => some (s2, acc.2 ++ es2)) (s, es0) = some (s, es0) := by
  induction l generalizing es0 with
  | nil => simp [List.foldlM]
  | cons jid rest ih =>
    simp only [List.foldlM]
    rw [hall jid (List.mem_cons_self jid rest)]
    simp only [Option.pure_def, Option.bind_eq_bind, Option.some_bind,
      List.append_nil]
    exact ih es0 (fun j hj => hall j (List.mem_cons_of_mem jid hj))

/-- C7 (amended): an error-type discovery response (no parsed payload)
matching an outstanding EXTENSION request makes the coordinator throw, while
one matching an outstanding MAIN request is silently discarded — the pending
entry and the request-tracking entry are cleared, the cache key is set to
`undefined` (not truthy data), and, provided every waiter's current
announcement still targets that fingerprint, nothing is emitted and no
exception escapes. -/
theorem c7_amended_error_reply_behavior (st : HandlerState) (h : Reachable st)
    (r : IQStanza) (req : Request)
    (hreq : jmGet st.iqRequests r.id = some req)
    (hcaps : r.capabilities = none) :
    (req.rtype = "ext" → handleIQ st r = none) ∧
    (req.rtype ≠ "ext" →
      ∀ pm, jmGet st.pending req.fullNode = some pm →
      (∀ jid ∈ pm.buddies, ∀ bId b pc, jmGet st.pendingBuddies jid = some bId →
        jmGet st.buddyHeap bId = some b → b.originalPresence.caps = some pc →
        pc.node ++ "#" ++ pc.ver = req.fullNode) →
      ∃ st', handleIQ st r = some (st', { queries := [], emits := [] }) ∧
        jmGet st'.pending req.fullNode = none ∧
        jmGet st'.cache req.fullNode = some none ∧
        jmGet st'.iqRequests r.id = none) := by
  have hinv := reachable_inv st h
  constructor
  · intro hty
    simp only [handleIQ, hreq, if_pos hty, handleIQExt_nocaps st r req hcaps]
  · intro hty pm hp hall
    have hst1 : ∀ jid ∈ pm.buddies,
        emitEventIfFullyLoaded { st with cache := jmSet st.cache req.fullNode none } jid
          = some ({ st with cache := jmSet st.cache req.fullNode none }, []) := by
      intro jid hjid
      obtain ⟨bId, hpb⟩ := Option.isSome_iff_exists.mp
        (hinv.buddiesRegistered _ pm hp jid hjid)
      obtain ⟨b, hbh, hbc⟩ := hinv.buddyWf jid bId hpb
      obtain ⟨pc, hpc⟩ := Option.isSome_iff_exists.mp hbc
      refine emitEventIfFullyLoaded_falsy _ jid bId b pc hpb hbh hpc ?_
      simp only
      rw [hall jid hjid bId b pc hpb hbh hpc, jmGet_set_self]
      rfl
    have hfold := emitFold_allFalsy pm.buddies
      { st with cache := jmSet st.cache req.fullNode none } [] hst1
    refine ⟨{ st with cache := jmSet st.cache req.fullNode none, pending := jmDel st.pending req.fullNode, iqRequests := jmDel st.iqRequests r.id }, ?_, ?_, ?_, ?_⟩
    · simp only [handleIQ, hreq, if_neg hty, handleIQCaps, hcaps]
      rw [show jmGet ({ st with cache := jmSet st.cache req.fullNode none } :
        HandlerState).pending req.fullNode = some pm from hp]
      simp only [hfold]
    · simp only
      rw [jmGet_del_self _ _ hinv.pendingNodup]
    · simp only
      rw [jmGet_set_self]
    · simp only
      rw [jmGet_del_self _ _ hinv.iqNodup]

/-- Witness for C7 (amended) at a concrete reachable state: one waiter for
`app#v1` and its tracked main request, hit by an error reply. -/
theorem c7_amended_error_reply_behavior_witness :
    ((⟨"caps", none, "app", "v1", "app#v1"⟩ : Request).rtype = "ext" →
      handleIQ ((runSt initState
        [Ev.pres ⟨"romeo@x", some ⟨"app", "v1", none, none⟩⟩]).getD initState)
        ⟨"caps-1", none⟩ = none) ∧
    ((⟨"caps", none, "app", "v1", "app#v1"⟩ : Request).rtype ≠ "ext" →
      ∀ pm, jmGet ((runSt initState
          [Ev.pres ⟨"romeo@x", some ⟨"app", "v1", none, none⟩⟩]).getD
            initState).pending
          (⟨"caps", none, "app", "v1", "app#v1"⟩ : Request).fullNode = some pm →
      (∀ jid ∈ pm.buddies, ∀ bId b pc,
        jmGet ((runSt initState
          [Ev.pres ⟨"romeo@x", some ⟨"app", "v1", none, none⟩⟩]).getD
            initState).pendingBuddies jid = some bId →
        jmGet ((runSt initState
          [Ev.pres ⟨"romeo@x", some ⟨"app", "v1", none, none⟩⟩]).getD
            initState).buddyHeap bId = some b →
        b.originalPresence.caps = some pc →
        pc.node ++ "#" ++ pc.ver
          = (⟨"caps", none, "app", "v1", "app#v1"⟩ : Request).fullNode) →
      ∃ st', handleIQ ((runSt initState
          [Ev.pres ⟨"romeo@x", some ⟨"app", "v1", none, none⟩⟩]).getD initState)
          ⟨"caps-1", none⟩ = some (st', { queries := [], emits := [] }) ∧
        jmGet st'.pending
          (⟨"caps", none, "app", "v1", "app#v1"⟩ : Request).fullNode = none ∧
        jmGet st'.cache
          (⟨"caps", none, "app", "v1", "app#v1"⟩ : Request).fullNode = some none ∧
        jmGet st'.iqRequests "caps-1" = none) :=
  c7_amended_error_reply_behavior _
    ⟨[Ev.pres ⟨"romeo@x", some ⟨"app", "v1", none, none⟩⟩], rfl⟩
    ⟨"caps-1", none⟩ ⟨"caps", none, "app", "v1", "app#v1"⟩ (by rfl) rfl

/-! ### Payload-independence of response routing (towards C9) -/

theorem cacheRel_refl (m : List (String × Option Caps)) : CacheRel m m := by
  induction m with
  | nil => exact List.Forall₂.nil
  | cons p rest ih => exact List.Forall₂.cons ⟨rfl, rfl⟩ ih

theorem extRel_refl (m : List (String × List (String × List String))) : ExtRel m m := by
  induction m with
  | nil => exact List.Forall₂.nil
  | cons p rest ih => exact List.Forall₂.cons ⟨rfl, rfl⟩ ih

theorem cacheRel_get {m1 m2 : List (String × Option Caps)} (h : CacheRel m1 m2)
    (k : String) :
    (jmGet m1 k = none ∧ jmGet m2 k = none) ∨
    (∃ v1 v2, jmGet m1 k = some v1 ∧ jmGet m2 k = some v2 ∧ v1.isSome = v2.isSome) := by
  induction h with
  | nil => exact Or.inl ⟨rfl, rfl⟩
  | cons hp hrest ih =>
    rename_i a b l1 l2
    obtain ⟨hk, hv⟩ := hp
    by_cases hka : k = a.1
    · right
      refine ⟨a.2, b.2, ?_, ?_, hv⟩
      · simp [jmGet, hka]
      · simp [jmGet, hka, ← hk]
    · have hkb : k ≠ b.1 := hk ▸ hka
      simpa [jmGet, hka, hkb] using ih

theorem cacheRel_truthy {m1 m2 : List (String × Option Caps)} (h : CacheRel m1 m2)
    (k : String) : capsTruthy (jmGet m1 k) = capsTruthy (jmGet m2 k) := by
  rcases cacheRel_get h k with ⟨h1, h2⟩ | ⟨v1, v2, h1, h2, hv⟩
  · rw [h1, h2]
  · rw [h1, h2]
    cases v1 with
    | none =>
      cases v2 with
      | none => rfl
      | some c2 => simp at hv
    | some c1 =>
      cases v2 with
      | none => simp at hv
      | some c2 => rfl

theorem cacheRel_keys {m1 m2 : List (String × Option Caps)} (h : CacheRel m1 m2) :
    jmKeys m1 = jmKeys m2 := by
  induction h with
  | nil => rfl
  | cons hp hrest ih =>
    simp only [jmKeys, List.map_cons] at ih ⊢
    rw [hp.1, ih]

theorem cacheRel_set {m1 m2 : List (String × Option Caps)} (h : CacheRel m1 m2)
    (k : String) (v1 v2 : Option Caps) (hv : v1.isSome = v2.isSome) :
    CacheRel (jmSet m1 k v1) (jmSet m2 k v2) := by
  induction h with
  | nil => exact List.Forall₂.cons ⟨rfl, hv⟩ List.Forall₂.nil
  | cons hp hrest ih =>
    rename_i a b l1 l2
    obtain ⟨hk, hvp⟩ := hp
    by_cases hka : k = a.1
    · have hkb : k = b.1 := hk ▸ hka
      simp only [jmSet, if_pos hka, if_pos hkb]
      exact List.Forall₂.cons ⟨rfl, hv⟩ hrest
    · have hkb : k ≠ b.1 := hk ▸ hka
      simp only [jmSet, if_neg hka, if_neg hkb]
      exact List.Forall₂.cons ⟨hk, hvp⟩ ih

theorem extRel_get {m1 m2 : List (String × List (String × List String))}
    (h : ExtRel m1 m2) (k : String) :
    (jmGet m1 k = none ∧ jmGet m2 k = none) ∨
    (∃ i1 i2, jmGet m1 k = some i1 ∧ jmGet m2 k = some i2 ∧
      i1.map Prod.fst = i2.map Prod.fst) := by
  induction h with
  | nil => exact Or.inl ⟨rfl, rfl⟩
  | cons hp hrest ih =>
    rename_i a b l1 l2
    obtain ⟨hk, hv⟩ := hp
    by_cases hka : k = a.1
    · right
      refine ⟨a.2, b.2, ?_, ?_, hv⟩
      · simp [jmGet, hka]
      · simp [jmGet, hka, ← hk]
    · have hkb : k ≠ b.1 := hk ▸ hka
      simpa [jmGet, hka, hkb] using ih

theorem extRel_keys {m1 m2 : List (String × List (String × List String))}
    (h : ExtRel m1 m2) :
    m1.map (fun p => (p.1, jmKeys p.2)) = m2.map (fun p => (p.1, jmKeys p.2)) := by
  induction h with
  | nil => rfl
  | cons hp hrest ih =>
    simp only [List.map_cons, ih, List.cons.injEq, and_true]
    exact Prod.ext hp.1 hp.2

theorem extRel_set {m1 m2 : List (String × List (String × List String))}
    (h : ExtRel m1 m2) (k : String) (i1 i2 : List (String × List String))
    (hv : i1.map Prod.fst = i2.map Prod.fst) :
    ExtRel (jmSet m1 k i1) (jmSet m2 k i2) := by
  induction h with
  | nil => exact List.Forall₂.cons ⟨rfl, hv⟩ List.Forall₂.nil
  | cons hp hrest ih =>
    rename_i a b l1 l2
    obtain ⟨hk, hvp⟩ := hp
    by_cases hka : k = a.1
    · have hkb : k = b.1 := hk ▸ hka
      simp only [jmSet, if_pos hka, if_pos hkb]
      exact List.Forall₂.cons ⟨rfl, hv⟩ hrest
    · have hkb : k ≠ b.1 := hk ▸ hka
      simp only [jmSet, if_neg hka, if_neg hkb]
      exact List.Forall₂.cons ⟨hk, hvp⟩ ih

theorem keysEq_get_isNone {α : Type} (i1 i2 : List (String × α)) (x : String)
    (hk : i1.map Prod.fst = i2.map Prod.fst) :
    (jmGet i1 x).isNone = (jmGet i2 x).isNone := by
  induction i1 generalizing i2 with
  | nil =>
    cases i2 with
    | nil => rfl
    | cons q r2 => simp at hk
  | cons p r1 ih =>
    cases i2 with
    | nil => simp at hk
    | cons q r2 =>
      simp only [List.map_cons, List.cons.injEq] at hk
      by_cases hx : x = p.1
      · simp [jmGet, hx, hk.1, hx.trans hk.1]
      · have hx2 : x ≠ q.1 := hk.1 ▸ hx
        simpa [jmGet, hx, hx2] using ih r2 hk.2

theorem extConcatFold_alwaysSome (i : List (String × List String))
    (exts : List String) (raw : List (Option String)) :
    (exts.foldlM (fun (acc : List (Option String)) e =>
      match jmGet i e with
      | some fs => some (acc ++ fs.map some)
      | none => some (acc ++ [none])) raw).isSome = true := by
  induction exts generalizing raw with
  | nil => rfl
  | cons e rest ih =>
    simp only [List.foldlM]
    cases jmGet i e with
    | none => simpa using ih _
    | some fs => simpa using ih _

theorem extConcatFold_alwaysNone (exts : List String) (raw : List (Option String)) :
    (exts.foldlM (fun (_ : List (Option String)) (_ : String) =>
      (none : Option (List (Option String)))) raw).isSome = exts.isEmpty := by
  cases exts with
  | nil => rfl
  | cons e rest => simp [List.foldlM]

theorem concatExtFeatures_isSome (s1 s2 : HandlerState) (F : String)
    (raw1 raw2 : List (Option String)) (extOpt : Option (List String))
    (hx : (jmGet s1.extCache F).isNone = (jmGet s2.extCache F).isNone) :
    (concatExtFeatures s1 F raw1 extOpt).isSome
      = (concatExtFeatures s2 F raw2 extOpt).isSome := by
  cases extOpt with
  | none => rfl
  | some exts =>
    cases hg1 : jmGet s1.extCache F with
    | none =>
      cases hg2 : jmGet s2.extCache F with
      | none =>
        simp only [concatExtFeatures, hg1, hg2]
        rw [extConcatFold_alwaysNone exts raw1, extConcatFold_alwaysNone exts raw2]
      | some i2 => rw [hg1, hg2] at hx; simp at hx
    | some i1 =>
      cases hg2 : jmGet s2.extCache F with
      | none => rw [hg1, hg2] at hx; simp at hx
      | some i2 =>
        simp only [concatExtFeatures, hg1, hg2]
        rw [extConcatFold_alwaysSome i1 exts raw1, extConcatFold_alwaysSome i2 exts raw2]

theorem emitCaps_congr (s1 s2 : HandlerState) (p : Presence) (hrel : StRel s1 s2) :
    (emitCapabilitiesEvent s1 p = none ∧ emitCapabilitiesEvent s2 p = none) ∨
    (∃ ev1 ev2 : String × EmittedCaps,
      emitCapabilitiesEvent s1 p = some (s1, ev1) ∧
      emitCapabilitiesEvent s2 p = some (s2, ev2) ∧ ev1.1 = ev2.1) := by
  obtain ⟨hcache, hext, hrest⟩ := hrel
  cases hpc : p.caps with
  | none =>
    left
    constructor <;> simp [emitCapabilitiesEvent, hpc]
  | some c =>
    rcases cacheRel_get hcache (c.node ++ "#" ++ c.ver) with ⟨h1, h2⟩ | ⟨v1, v2, h1, h2, hv⟩
    · left
      constructor <;> simp [emitCapabilitiesEvent, hpc, h1, h2]
    · cases v1 with
      | none =>
        cases v2 with
        | none =>
          left
          constructor <;> simp [emitCapabilitiesEvent, hpc, h1, h2]
        | some c2 => simp at hv
      | some c1 =>
        cases v2 with
        | none => simp at hv
        | some c2 =>
          have hxi : (jmGet s1.extCache (c.node ++ "#" ++ c.ver)).isNone
              = (jmGet s2.extCache (c.node ++ "#" ++ c.ver)).isNone := by
            rcases extRel_get hext (c.node ++ "#" ++ c.ver) with ⟨hh1, hh2⟩ | ⟨i1, i2, hh1, hh2, _⟩
            · rw [hh1, hh2]
            · rw [hh1, hh2]
              rfl
          have hcs := concatExtFeatures_isSome s1 s2 (c.node ++ "#" ++ c.ver)
            (c1.rawFeatures.map some) (c2.rawFeatures.map some) c.ext hxi
          cases hc1 : concatExtFeatures s1 (c.node ++ "#" ++ c.ver)
              (c1.rawFeatures.map some) c.ext with
          | none =>
            cases hc2 : concatExtFeatures s2 (c.node ++ "#" ++ c.ver)
                (c2.rawFeatures.map some) c.ext with
            | none =>
              left
              constructor <;> simp [emitCapabilitiesEvent, deepClone, hpc, h1, h2, hc1, hc2]
            | some r2 => rw [hc1, hc2] at hcs; simp at hcs
          | some r1 =>
            cases hc2 : concatExtFeatures s2 (c.node ++ "#" ++ c.ver)
                (c2.rawFeatures.map some) c.ext with
            | none => rw [hc1, hc2] at hcs; simp at hcs
            | some r2 =>
              right
              refine ⟨(p.fromJid, ⟨c1.node, removeDuplicates r1,
                  parseCommonFeaturesOv (removeDuplicates r1), c1.clientName⟩),
                (p.fromJid, ⟨c2.node, removeDuplicates r2,
                  parseCommonFeaturesOv (removeDuplicates r2), c2.clientName⟩),
                ?_, ?_, rfl⟩
              · simp [emitCapabilitiesEvent, deepClone, hpc, h1, hc1]
              · simp [emitCapabilitiesEvent, deepClone, hpc, h2, hc2]

theorem eifl_congr (s1 s2 : HandlerState) (jid : String) (hrel : StRel s1 s2) :
    (emitEventIfFullyLoaded s1 jid = none ∧ emitEventIfFullyLoaded s2 jid = none) ∨
    (∃ es1 es2 : List (String × EmittedCaps),
      emitEventIfFullyLoaded s1 jid = some (s1, es1) ∧
      emitEventIfFullyLoaded s2 jid = some (s2, es2) ∧
      es1.map Prod.fst = es2.map Prod.fst) := by
  obtain ⟨hcache, hext, hpend, hpext, hpb, hiq, hiqc, hheap, hwa, hnb, hna⟩ := hrel
  cases hg : jmGet s1.pendingBuddies jid with
  | none =>
    left
    constructor <;> simp [emitEventIfFullyLoaded, hg, ← hpb]
  | some bId =>
    cases hb : jmGet s1.buddyHeap bId with
    | none =>
      left
      constructor <;> simp [emitEventIfFullyLoaded, hg, hb, ← hpb, ← hheap]
    | some b =>
      cases hbc : b.originalPresence.caps with
      | none =>
        left
        constructor <;> simp [emitEventIfFullyLoaded, hg, hb, hbc, ← hpb, ← hheap]
      | some pc =>
        have htr := cacheRel_truthy hcache (pc.node ++ "#" ++ pc.ver)
        by_cases hcond : (capsTruthy (jmGet s1.cache (pc.node ++ "#" ++ pc.ver))
            && b.pendingExts.isEmpty) = true
        · rcases emitCaps_congr s1 s2 b.originalPresence
            ⟨hcache, hext, hpend, hpext, hpb, hiq, hiqc, hheap, hwa, hnb, hna⟩ with
            ⟨he1, he2⟩ | ⟨ev1, ev2, he1, he2, hev⟩
          · left
            constructor <;>
              simp [emitEventIfFullyLoaded, hg, hb, hbc, ← hpb, ← hheap, ← htr,
                hcond, he1, he2]
          · right
            refine ⟨[ev1], [ev2], ?_, ?_, ?_⟩
            · simp [emitEventIfFullyLoaded, hg, hb, hbc, hcond, he1]
            · simp [emitEventIfFullyLoaded, hg, hb, hbc, ← hpb, ← hheap, ← htr,
                hcond, he2]
            · simp [hev]
        · right
          refine ⟨[], [], ?_, ?_, rfl⟩
          · simp only [emitEventIfFullyLoaded, hg, hb, hbc]
            rw [if_neg hcond]
          · simp only [emitEventIfFullyLoaded, ← hpb, hg, ← hheap, hb, hbc]
            rw [← htr, if_neg hcond]

theorem emitFold_congr (l : List String) (s1 s2 : HandlerState)
    (es01 es02 : List (String × EmittedCaps)) (hrel : StRel s1 s2)
    (hes : es01.map Prod.fst = es02.map Prod.fst) :
    (l.foldlM (fun (acc : HandlerState × List (String × EmittedCaps)) jid =>
        match emitEventIfFullyLoaded acc.1 jid with
        | none => none
        | some (s3, es3) => some (s3, acc.2 ++ es3)) (s1, es01) = none ∧
      l.foldlM (fun (acc : HandlerState × List (String × EmittedCaps)) jid =>
        match emitEventIfFullyLoaded acc.1 jid with
        | none => none
        | some (s3, es3) => some (s3, acc.2 ++ es3)) (s2, es02) = none) ∨
    (∃ es1 es2, l.foldlM (fun (acc : HandlerState × List (String × EmittedCaps)) jid =>
        match emitEventIfFullyLoaded acc.1 jid with
        | none => none
        | some (s3, es3) => some (s3, acc.2 ++ es3)) (s1, es01) = some (s1, es1) ∧
      l.foldlM (fun (acc : HandlerState × List (String × EmittedCaps)) jid =>
        match emitEventIfFullyLoaded acc.1 jid with
        | none => none
        | some (s3, es3) => some (s3, acc.2 ++ es3)) (s2, es02) = some (s2, es2) ∧
      es1.map Prod.fst = es2.map Prod.fst) := by
  induction l generalizing es01 es02 with
  | nil =>
    right
    exact ⟨es01, es02, rfl, rfl, hes⟩
  | cons jid rest ih =>
    rcases eifl_congr s1 s2 jid hrel with ⟨he1, he2⟩ | ⟨es1', es2', he1, he2, hev⟩
    · left
      constructor <;> simp [List.foldlM, he1, he2]
    · have hes' : (es01 ++ es1').map Prod.fst = (es02 ++ es2').map Prod.fst := by
        simp [hes, hev]
      rcases ih (es01 ++ es1') (es02 ++ es2') hes' with ⟨hf1, hf2⟩ | ⟨esa, esb, hf1, hf2, hab⟩
      · left
        constructor <;> simp only [List.foldlM, he1, he2, Option.pure_def,
          Option.bind_eq_bind, Option.some_bind] <;> assumption
      · right
        refine ⟨esa, esb, ?_, ?_, hab⟩ <;>
          simp only [List.foldlM, he1, he2, Option.pure_def,
            Option.bind_eq_bind, Option.some_bind] <;> assumption

theorem extFold_congr (arr : List Nat) (aId : Nat) (s1 s2 : HandlerState)
    (es01 es02 : List (String × EmittedCaps)) (hrel : StRel s1 s2)
    (hes : es01.map Prod.fst = es02.map Prod.fst) :
    (arr.foldlM (fun (acc : HandlerState × List (String × EmittedCaps)) bId =>
        match jmGet acc.1.buddyHeap bId with
        | none => none
        | some b =>
          let b' := { b with pendingExts := spliceIndexOf b.pendingExts aId }
          let s1x := { acc.1 with buddyHeap := jmSet acc.1.buddyHeap bId b' }
          match emitEventIfFullyLoaded s1x b.jid with
          | none => none
          | some (s3, es3) => some (s3, acc.2 ++ es3)) (s1, es01) = none ∧
      arr.foldlM (fun (acc : HandlerState × List (String × EmittedCaps)) bId =>
        match jmGet acc.1.buddyHeap bId with
        | none => none
        | some b =>
          let b' := { b with pendingExts := spliceIndexOf b.pendingExts aId }
          let s1x := { acc.1 with buddyHeap := jmSet acc.1.buddyHeap bId b' }
          match emitEventIfFullyLoaded s1x b.jid with
          | none => none
          | some (s3, es3) => some (s3, acc.2 ++ es3)) (s2, es02) = none) ∨
    (∃ s1' s2' es1 es2,
      arr.foldlM (fun (acc : HandlerState × List (String × EmittedCaps)) bId =>
        match jmGet acc.1.buddyHeap bId with
        | none => none
        | some b =>
          let b' := { b with pendingExts := spliceIndexOf b.pendingExts aId }
          let s1x := { acc.1 with buddyHeap := jmSet acc.1.buddyHeap bId b' }
          match emitEventIfFullyLoaded s1x b.jid with
          | none => none
          | some (s3, es3) => some (s3, acc.2 ++ es3)) (s1, es01) = some (s1', es1) ∧
      arr.foldlM (fun (acc : HandlerState × List (String × EmittedCaps)) bId =>
        match jmGet acc.1.buddyHeap bId with
        | none => none
        | some b =>
          let b' := { b with pendingExts := spliceIndexOf b.pendingExts aId }
          let s1x := { acc.1 with buddyHeap := jmSet acc.1.buddyHeap bId b' }
          match emitEventIfFullyLoaded s1x b.jid with
          | none => none
          | some (s3, es3) => some (s3, acc.2 ++ es3)) (s2, es02) = some (s2', es2) ∧
      StRel s1' s2' ∧ es1.map Prod.fst = es2.map Prod.fst) := by
  induction arr generalizing s1 s2 es01 es02 with
  | nil =>
    right
    exact ⟨s1, s2, es01, es02, rfl, rfl, hrel, hes⟩
  | cons bId rest ih =>
    obtain ⟨hcache, hext, hpend, hpext, hpb, hiq, hiqc, hheap, hwa, hnb, hna⟩ := hrel
    cases hb : jmGet s1.buddyHeap bId with
    | none =>
      left
      constructor <;> simp [List.foldlM, hb, ← hheap]
    | some b =>
      have hb2 : jmGet s2.buddyHeap bId = some b := by rw [← hheap]; exact hb
      have hrel1 : StRel
          { s1 with buddyHeap := jmSet s1.buddyHeap bId { b with pendingExts := spliceIndexOf b.pendingExts aId } }
          { s2 with buddyHeap := jmSet s2.buddyHeap bId { b with pendingExts := spliceIndexOf b.pendingExts aId } } := by
        refine ⟨hcache, hext, hpend, hpext, hpb, hiq, hiqc, ?_, hwa, hnb, hna⟩
        simp only
        rw [hheap]
      rcases eifl_congr _ _ b.jid hrel1 with ⟨he1, he2⟩ | ⟨es1', es2', he1, he2, hev⟩
      · left
        constructor <;> simp [List.foldlM, hb, hb2, he1, he2]
      · have hes' : (es01 ++ es1').map Prod.fst = (es02 ++ es2').map Prod.fst := by
          simp [hes, hev]
        rcases ih _ _ (es01 ++ es1') (es02 ++ es2') hrel1 hes' with
          ⟨hf1, hf2⟩ | ⟨sa, sb, esa, esb, hf1, hf2, hsab, hab⟩
        · left
          constructor <;> simp only [List.foldlM, hb, hb2, he1, he2, Option.pure_def,
            Option.bind_eq_bind, Option.some_bind] <;> assumption
        · right
          refine ⟨sa, sb, esa, esb, ?_, ?_, hsab, hab⟩ <;>
            simp only [List.foldlM, hb, hb2, he1, he2, Option.pure_def,
              Option.bind_eq_bind, Option.some_bind] <;> assumption

theorem handleIQCaps_congr (st : HandlerState) (r1 r2 : IQStanza) (req : Request)
    (c1 c2 : Caps) (h1 : r1.capabilities = some c1) (h2 : r2.capabilities = some c2) :
    (handleIQCaps st r1 req = none ∧ handleIQCaps st r2 req = none) ∨
    (∃ s1 s2 es1 es2, handleIQCaps st r1 req = some (s1, es1) ∧
      handleIQCaps st r2 req = some (s2, es2) ∧ StRel s1 s2 ∧
      es1.map Prod.fst = es2.map Prod.fst) := by
  have hrel1 : StRel
      { st with cache := jmSet st.cache req.fullNode r1.capabilities }
      { st with cache := jmSet st.cache req.fullNode r2.capabilities } := by
    refine ⟨?_, extRel_refl _, rfl, rfl, rfl, rfl, rfl, rfl, rfl, rfl, rfl⟩
    exact cacheRel_set (cacheRel_refl st.cache) req.fullNode _ _ (by rw [h1, h2]; rfl)

  cases hp : jmGet st.pending req.fullNode with
  | none =>
    right
    refine ⟨_, _, [], [], ?_, ?_, hrel1, rfl⟩ <;>
      simp [handleIQCaps, hp]
  | some pm =>
    rcases emitFold_congr pm.buddies _ _ [] [] hrel1 rfl with
      ⟨hf1, hf2⟩ | ⟨es1, es2, hf1, hf2, hev⟩
    · left
      refine ⟨?_, ?_⟩
      · simp only [handleIQCaps, hp, hf1]
      · simp only [handleIQCaps, hp, hf2]
    · right
      refine ⟨{ st with cache := jmSet st.cache req.fullNode r1.capabilities, pending := jmDel st.pending req.fullNode }, { st with cache := jmSet st.cache req.fullNode r2.capabilities, pending := jmDel st.pending req.fullNode }, es1, es2, ?_, ?_, ?_, hev⟩
      · simp only [handleIQCaps, hp, hf1]
      · simp only [handleIQCaps, hp, hf2]
      · exact ⟨hrel1.1, extRel_refl _, rfl, rfl, rfl, rfl, rfl, rfl, rfl, rfl, rfl⟩

theorem handleIQExt_congr (st : HandlerState) (r1 r2 : IQStanza) (req : Request)
    (c1 c2 : Caps) (h1 : r1.capabilities = some c1) (h2 : r2.capabilities = some c2) :
    (handleIQExt st r1 req = none ∧ handleIQExt st r2 req = none) ∨
    (∃ s1 s2 es1 es2, handleIQExt st r1 req = some (s1, es1) ∧
      handleIQExt st r2 req = some (s2, es2) ∧ StRel s1 s2 ∧
      es1.map Prod.fst = es2.map Prod.fst) := by
  cases hpe : jmGet st.pendingExt req.fullNode with
  | none =>
    left
    constructor <;> simp [handleIQExt, hpe]
  | some inner =>
    cases hre : req.rext with
    | none =>
      left
      constructor <;> simp [handleIQExt, hpe, hre]
    | some e =>
      cases hin : jmGet inner e with
      | none =>
        left
        constructor <;> simp [handleIQExt, hpe, hre, hin]
      | some aId =>
        cases hec : jmGet st.extCache req.fullNode with
        | none =>
          have hrel2 : StRel
              { st with extCache := jmSet (jmSet st.extCache req.fullNode []) req.fullNode (jmSet [] e c1.rawFeatures) }
              { st with extCache := jmSet (jmSet st.extCache req.fullNode []) req.fullNode (jmSet [] e c2.rawFeatures) } := by
            refine ⟨cacheRel_refl _, ?_, rfl, rfl, rfl, rfl, rfl, rfl, rfl, rfl, rfl⟩
            exact extRel_set (extRel_refl _) req.fullNode _ _ (by simp [jmSet])
          rcases extFold_congr ((jmGet st.waitArrs aId).getD []) aId _ _ [] [] hrel2 rfl with
            ⟨hf1, hf2⟩ | ⟨sa, sb, esa, esb, hf1, hf2, hsab, hab⟩
          · left
            refine ⟨?_, ?_⟩
            · simp only [handleIQExt, hpe, hre, hin, hec, h1, jmGet_set_self, hf1]
            · simp only [handleIQExt, hpe, hre, hin, hec, h2, jmGet_set_self, hf2]
          · obtain ⟨hca, hxa, hpda, hpxa, hpba, hiqa, hica, hha, hwa2, hba, hna⟩ := hsab
            cases hp3 : jmGet sa.pendingExt req.fullNode with
            | none =>
              left
              refine ⟨?_, ?_⟩
              · simp only [handleIQExt, hpe, hre, hin, hec, h1, jmGet_set_self, hf1, hp3]
              · simp only [handleIQExt, hpe, hre, hin, hec, h2, jmGet_set_self, hf2,
                  ← hpxa, hp3]
            | some inner3 =>
              right
              refine ⟨{ sa with pendingExt := jmSet sa.pendingExt req.fullNode (jmDel inner3 e) }, { sb with pendingExt := jmSet sb.pendingExt req.fullNode (jmDel inner3 e) }, esa, esb, ?_, ?_, ?_, hab⟩
              · simp only [handleIQExt, hpe, hre, hin, hec, h1, jmGet_set_self, hf1, hp3]
              · simp only [handleIQExt, hpe, hre, hin, hec, h2, jmGet_set_self, hf2,
                  ← hpxa, hp3]
              · exact ⟨hca, hxa, hpda, by simp only; rw [hpxa], hpba, hiqa, hica, hha,
                  hwa2, hba, hna⟩
        | some innerC =>
          have hrel2 : StRel
              { st with extCache := jmSet st.extCache req.fullNode (jmSet innerC e c1.rawFeatures) }
              { st with extCache := jmSet st.extCache req.fullNode (jmSet innerC e c2.rawFeatures) } := by
            refine ⟨cacheRel_refl _, ?_, rfl, rfl, rfl, rfl, rfl, rfl, rfl, rfl, rfl⟩
            refine extRel_set (extRel_refl _) req.fullNode _ _ ?_
            rw [jmSet_keys, jmSet_keys]
          rcases extFold_congr ((jmGet st.waitArrs aId).getD []) aId _ _ [] [] hrel2 rfl with
            ⟨hf1, hf2⟩ | ⟨sa, sb, esa, esb, hf1, hf2, hsab, hab⟩
          · left
            refine ⟨?_, ?_⟩
            · simp only [handleIQExt, hpe, hre, hin, hec, h1, hf1]
            · simp only [handleIQExt, hpe, hre, hin, hec, h2, hf2]
          · obtain ⟨hca, hxa, hpda, hpxa, hpba, hiqa, hica, hha, hwa2, hba, hna⟩ := hsab
            cases hp3 : jmGet sa.pendingExt req.fullNode with
            | none =>
              left
              refine ⟨?_, ?_⟩
              · simp only [handleIQExt, hpe, hre, hin, hec, h1, hf1, hp3]
              · simp only [handleIQExt, hpe, hre, hin, hec, h2, hf2, ← hpxa, hp3]
            | some inner3 =>
              right
              refine ⟨{ sa with pendingExt := jmSet sa.pendingExt req.fullNode (jmDel inner3 e) }, { sb with pendingExt := jmSet sb.pendingExt req.fullNode (jmDel inner3 e) }, esa, esb, ?_, ?_, ?_, hab⟩
              · simp only [handleIQExt, hpe, hre, hin, hec, h1, hf1, hp3]
              · simp only [handleIQExt, hpe, hre, hin, hec, h2, hf2, ← hpxa, hp3]
              · exact ⟨hca, hxa, hpda, by simp only; rw [hpxa], hpba, hiqa, hica, hha,
                  hwa2, hba, hna⟩

/-- C9: response routing depends only on the correlation token.  For two
responses bearing the same id but arbitrary (parsed) payloads — including
any difference in the echoed query-node attribute, which sits inside the
payload and is never read — the coordinator either throws on both or
succeeds on both, and in the latter case it resolves them to the same
request context: the two resulting states agree on every key of every cache
(only stored payload values differ), on all pending bookkeeping, and on
which peers were emitted; no query is sent either way. -/
theorem c9_routing_depends_only_on_token (st : HandlerState) (r1 r2 : IQStanza)
    (c1 c2 : Caps) (hid : r1.id = r2.id)
    (h1 : r1.capabilities = some c1) (h2 : r2.capabilities = some c2) :
    (handleIQ st r1).isSome = (handleIQ st r2).isSome ∧
    (∀ s1 e1 s2 e2, handleIQ st r1 = some (s1, e1) → handleIQ st r2 = some (s2, e2) →
      jmKeys s1.cache = jmKeys s2.cache ∧
      s1.extCache.map (fun p => (p.1, jmKeys p.2))
        = s2.extCache.map (fun p => (p.1, jmKeys p.2)) ∧
      s1.pending = s2.pending ∧ s1.pendingExt = s2.pendingExt ∧
      s1.pendingBuddies = s2.pendingBuddies ∧ s1.iqRequests = s2.iqRequests ∧
      s1.buddyHeap = s2.buddyHeap ∧ s1.waitArrs = s2.waitArrs ∧
      e1.queries = e2.queries ∧ e1.emits.map Prod.fst = e2.emits.map Prod.fst) := by
  cases hreq : jmGet st.iqRequests r1.id with
  | none =>
    have hreq2 : jmGet st.iqRequests r2.id = none := by rw [← hid]; exact hreq
    have heq1 : handleIQ st r1 = some (st, Effects.nil) := by
      simp [handleIQ, hreq]
    have heq2 : handleIQ st r2 = some (st, Effects.nil) := by
      simp [handleIQ, hreq2]
    refine ⟨by rw [heq1, heq2], ?_⟩
    intro s1 e1 s2 e2 hh1 hh2
    rw [heq1] at hh1
    rw [heq2] at hh2
    injection hh1 with hh1
    injection hh2 with hh2
    injection hh1 with hs1 he1
    injection hh2 with hs2 he2
    subst hs1; subst hs2; subst he1; subst he2
    exact ⟨rfl, rfl, rfl, rfl, rfl, rfl, rfl, rfl, rfl, rfl⟩
  | some req =>
    have hreq2 : jmGet st.iqRequests r2.id = some req := by rw [← hid]; exact hreq
    by_cases hty : req.rtype = "ext"
    · rcases handleIQExt_congr st r1 r2 req c1 c2 h1 h2 with
        ⟨hx1, hx2⟩ | ⟨sa, sb, esa, esb, hx1, hx2, hsab, hab⟩
      · have heq1 : handleIQ st r1 = none := by
          simp [handleIQ, hreq, if_pos hty, hx1]
        have heq2 : handleIQ st r2 = none := by
          simp [handleIQ, hreq2, if_pos hty, hx2]
        refine ⟨by rw [heq1, heq2], ?_⟩
        intro s1 e1 s2 e2 hh1 hh2
        rw [heq1] at hh1
        exact Option.noConfusion hh1
      · obtain ⟨hca, hxa, hpda, hpxa, hpba, hiqa, hica, hha, hwa, hba, hna⟩ := hsab
        have heq1 : handleIQ st r1 = some ({ sa with iqRequests := jmDel sa.iqRequests r1.id }, { queries := [], emits := esa }) := by
          simp only [handleIQ, hreq, if_pos hty, hx1]
        have heq2 : handleIQ st r2 = some ({ sb with iqRequests := jmDel sb.iqRequests r2.id }, { queries := [], emits := esb }) := by
          simp only [handleIQ, hreq2, if_pos hty, hx2]
        refine ⟨by rw [heq1, heq2]; rfl, ?_⟩
        intro s1 e1 s2 e2 hh1 hh2
        rw [heq1] at hh1
        rw [heq2] at hh2
        injection hh1 with hh1
        injection hh2 with hh2
        injection hh1 with hs1 he1
        injection hh2 with hs2 he2
        subst hs1; subst hs2; subst he1; subst he2
        refine ⟨cacheRel_keys hca, extRel_keys hxa, hpda, hpxa, hpba, ?_, hha, hwa, rfl, hab⟩
        simp only
        rw [hiqa, hid]
    · rcases handleIQCaps_congr st r1 r2 req c1 c2 h1 h2 with
        ⟨hx1, hx2⟩ | ⟨sa, sb, esa, esb, hx1, hx2, hsab, hab⟩
      · have heq1 : handleIQ st r1 = none := by
          simp [handleIQ, hreq, if_neg hty, hx1]
        have heq2 : handleIQ st r2 = none := by
          simp [handleIQ, hreq2, if_neg hty, hx2]
        refine ⟨by rw [heq1, heq2], ?_⟩
        intro s1 e1 s2 e2 hh1 hh2
        rw [heq1] at hh1
        exact Option.noConfusion hh1
      · obtain ⟨hca, hxa, hpda, hpxa, hpba, hiqa, hica, hha, hwa, hba, hna⟩ := hsab
        have heq1 : handleIQ st r1 = some ({ sa with iqRequests := jmDel sa.iqRequests r1.id }, { queries := [], emits := esa }) := by
          simp only [handleIQ, hreq, if_neg hty, hx1]
        have heq2 : handleIQ st r2 = some ({ sb with iqRequests := jmDel sb.iqRequests r2.id }, { queries := [], emits := esb }) := by
          simp only [handleIQ, hreq2, if_neg hty, hx2]
        refine ⟨by rw [heq1, heq2]; rfl, ?_⟩
        intro s1 e1 s2 e2 hh1 hh2
        rw [heq1] at hh1
        rw [heq2] at hh2
        injection hh1 with hh1
        injection hh2 with hh2
        injection hh1 with hs1 he1
        injection hh2 with hs2 he2
        subst hs1; subst hs2; subst he1; subst he2
        refine ⟨cacheRel_keys hca, extRel_keys hxa, hpda, hpxa, hpba, ?_, hha, hwa, rfl, hab⟩
        simp only
        rw [hiqa, hid]

/-- Witness for C9 at a concrete input: two responses to the tracked id
`caps-1` whose payloads differ in every field, including the echoed node. -/
theorem c9_routing_depends_only_on_token_witness :
    (handleIQ ((runSt initState
        [Ev.pres ⟨"romeo@x", some ⟨"app", "v1", none, none⟩⟩]).getD initState)
      ⟨"caps-1", some ⟨some "app#v1", ["jabber:iq:version"], [], none⟩⟩).isSome
    = (handleIQ ((runSt initState
        [Ev.pres ⟨"romeo@x", some ⟨"app", "v1", none, none⟩⟩]).getD initState)
      ⟨"caps-1", some ⟨some "totally#different", ["urn:xmpp:bob"], [], some "X"⟩⟩).isSome ∧
    (∀ s1 e1 s2 e2,
      handleIQ ((runSt initState
        [Ev.pres ⟨"romeo@x", some ⟨"app", "v1", none, none⟩⟩]).getD initState)
        ⟨"caps-1", some ⟨some "app#v1", ["jabber:iq:version"], [], none⟩⟩ = some (s1, e1) →
      handleIQ ((runSt initState
        [Ev.pres ⟨"romeo@x", some ⟨"app", "v1", none, none⟩⟩]).getD initState)
        ⟨"caps-1", some ⟨some "totally#different", ["urn:xmpp:bob"], [], some "X"⟩⟩ = some (s2, e2) →
      jmKeys s1.cache = jmKeys s2.cache ∧
      s1.extCache.map (fun p => (p.1, jmKeys p.2))
        = s2.extCache.map (fun p => (p.1, jmKeys p.2)) ∧
      s1.pending = s2.pending ∧ s1.pendingExt = s2.pendingExt ∧
      s1.pendingBuddies = s2.pendingBuddies ∧ s1.iqRequests = s2.iqRequests ∧
      s1.buddyHeap = s2.buddyHeap ∧ s1.waitArrs = s2.waitArrs ∧
      e1.queries = e2.queries ∧ e1.emits.map Prod.fst = e2.emits.map Prod.fst) :=
  c9_routing_depends_only_on_token _
    ⟨"caps-1", some ⟨some "app#v1", ["jabber:iq:version"], [], none⟩⟩
    ⟨"caps-1", some ⟨some "totally#different", ["urn:xmpp:bob"], [], some "X"⟩⟩
    _ _ rfl rfl rfl

end JunctionCaps
